import Mathlib

/-!
Verification of the hunk locator/applier and parser of `builtin-apply.c`
(`git apply`).  Files are byte lists (a byte is a `Nat` below 256 in
practice); line images follow `struct image` / `struct line` of the C
source: a byte buffer together with a line table holding, per line, the
byte length, a 24-bit whitespace-insensitive hash and a flag word.
-/

namespace GitApply

/-- C `isspace` on the bytes git feeds it (ASCII): space and `\t\n\v\f\r`. -/
def isspaceB (b : Nat) : Bool := b == 32 || (9 ≤ b && b ≤ 13)

/-- `hash_line` (builtin-apply.c:205): fold the non-whitespace bytes with
`h = h*3 + byte` in a `uint32_t`; the value is stored into a 24-bit
bitfield, so we keep the low 24 bits. -/
def hashLine (l : List Nat) : Nat :=
  (l.foldl (fun h b => if isspaceB b then h else (h * 3 + b % 256) % 2 ^ 32) 0) % 2 ^ 24

/-- `struct line`: byte length, 24-bit hash, flag word (bit 0 = LINE_COMMON). -/
structure LineRec where
  len : Nat
  hash : Nat
  flag : Nat
  deriving DecidableEq, Repr

/-- `struct image`: byte buffer plus line table. -/
structure Image where
  buf : List Nat
  lines : List LineRec
  deriving DecidableEq, Repr

def Image.len (img : Image) : Nat := img.buf.length

def Image.nr (img : Image) : Nat := img.lines.length

/-- Split a buffer into chunks given a list of chunk lengths. -/
def sliceAt (buf : List Nat) : List Nat → List (List Nat)
  | [] => []
  | n :: rest => buf.take n :: sliceAt (buf.drop n) rest

/-- Scanner state of the `prepare_image` line walk: `acc` holds the bytes
of the current line in reverse; a `\n` (byte 10) closes a line, a trailing
chunk without `\n` is a line too. -/
def splitGo : List Nat → List Nat → List (List Nat)
  | acc, [] => if acc = [] then [] else [acc.reverse]
  | acc, b :: rest =>
    if b = 10 then (10 :: acc).reverse :: splitGo [] rest
    else splitGo (b :: acc) rest

/-- The line decomposition `prepare_image` performs (builtin-apply.c:226):
scan to each `\n` inclusive; a trailing chunk without `\n` is a line too. -/
def splitLinesB (l : List Nat) : List (List Nat) := splitGo [] l

/-- `add_line_info` bookkeeping: an image assembled from a list of
(line bytes, flag) pairs, hashes computed from the bytes. -/
def imgOfTagged (ts : List (List Nat × Nat)) : Image :=
  { buf := (ts.map (·.1)).flatten
    lines := ts.map fun t => ⟨t.1.length, hashLine t.1, t.2⟩ }

/-- `prepare_image` (builtin-apply.c:226): keep the buffer; when asked,
build the line table with per-line length and hash, flags zero. -/
def prepareImage (buf : List Nat) (prepareLinetable : Bool) : Image :=
  if prepareLinetable then
    { buf := buf
      lines := (splitLinesB buf).map fun s => ⟨s.length, hashLine s, 0⟩ }
  else { buf := buf, lines := [] }

/-- The Line-Image invariant of the spec: the per-line lengths sum to the
buffer length, and each stored hash is the hash of the corresponding
slice of the buffer. -/
def imageWF (img : Image) : Prop :=
  (img.lines.map (·.len)).sum = img.buf.length ∧
    img.lines.map (·.hash) = (sliceAt img.buf (img.lines.map (·.len))).map hashLine

instance (img : Image) : Decidable (imageWF img) := by
  unfold imageWF; infer_instance

/-- `img` represents the line list `LL`: its buffer is their concatenation,
and its line table records their lengths and hashes. -/
def ImgRep (img : Image) (LL : List (List Nat)) : Prop :=
  img.buf = LL.flatten ∧
    img.lines.map (·.len) = LL.map List.length ∧
    img.lines.map (·.hash) = LL.map hashLine

instance (img : Image) (LL : List (List Nat)) : Decidable (ImgRep img LL) := by
  unfold ImgRep; infer_instance

/-- `remove_first_line` (builtin-apply.c:1836): advance the buffer past the
first line's bytes and drop the first line record. -/
def removeFirstLine (img : Image) : Image :=
  { buf := img.buf.drop ((img.lines.head?.map (·.len)).getD 0)
    lines := img.lines.drop 1 }

/-- `remove_last_line` (builtin-apply.c:1844): shrink the buffer length by
the last line's byte count and drop the last line record. -/
def removeLastLine (img : Image) : Image :=
  { buf := img.buf.take (img.buf.length - ((img.lines.getLast?.map (·.len)).getD 0))
    lines := img.lines.dropLast }

/-- `update_image` (builtin-apply.c:1849): replace the copy of the preimage
at line `appliedPos` with the postimage.  The byte offset and the removed
byte count are computed from the line-table lengths, the buffer is spliced
and the line records of the postimage are copied in. -/
def update_image (img : Image) (appliedPos : Nat) (pre post : Image) : Image :=
  let appliedAt := ((img.lines.take appliedPos).map (·.len)).sum
  let removeCount := (((img.lines.drop appliedPos).take pre.nr).map (·.len)).sum
  { buf := img.buf.take appliedAt ++ post.buf ++ img.buf.drop (appliedAt + removeCount)
    lines := img.lines.take appliedPos ++ post.lines ++ img.lines.drop (appliedPos + pre.nr) }

/-- The fixed preimage lines used by `update_pre_post_images`: the fixed
buffer re-split into lines by `prepare_image`, each paired with the flag of
the corresponding original preimage line. -/
def fixedPreTagged (pre : Image) (fixedBuf : List Nat) : List (List Nat × Nat) :=
  List.zipWith (fun c (r : LineRec) => (c, r.flag)) (splitLinesB fixedBuf) pre.lines

/-- Bit 0 of a flag word: LINE_COMMON. -/
def isCommonFlag (n : Nat) : Bool := n % 2 = 1

/-- The common-context walk of `update_pre_post_images` (builtin-apply.c:1623):
each non-common postimage line keeps its bytes and record; each common
postimage line takes the bytes of the next common fixed-preimage line, its
`len` is updated while `hash` and `flag` are kept.  Running out of common
preimage lines is the `die("oops")` path, modelled as `none`. -/
def adjustPost : List (List Nat × Nat) → List (LineRec × List Nat) →
    Option (List (LineRec × List Nat))
  | _, [] => some []
  | preT, (r, c) :: rest =>
    if isCommonFlag r.flag = false then
      (adjustPost preT rest).map fun l => (r, c) :: l
    else
      match preT.dropWhile (fun p => !isCommonFlag p.2) with
      | [] => none
      | (pc, _) :: preRest =>
        (adjustPost preRest rest).map fun l => ((⟨pc.length, r.hash, r.flag⟩ : LineRec), pc) :: l

/-- `update_pre_post_images` (builtin-apply.c:1595): rebuild the preimage
from the whitespace-fixed buffer (copying the original flags; the C
`assert` on the line count is `none`), then rewrite the common context
lines of the postimage in place from the fixed preimage. -/
def updatePrePostImages (pre post : Image) (fixedBuf : List Nat) :
    Option (Image × Image) :=
  let fp := prepareImage fixedBuf true
  if fp.lines.length ≠ pre.lines.length then none
  else
    let pre' : Image :=
      { buf := fixedBuf
        lines := List.zipWith (fun (nR oR : LineRec) => ⟨nR.len, nR.hash, oR.flag⟩)
          fp.lines pre.lines }
    let postPairs := List.zip post.lines (sliceAt post.buf (post.lines.map (·.len)))
    match adjustPost (fixedPreTagged pre fixedBuf) postPairs with
    | none => none
    | some pairs =>
      some (pre', { buf := (pairs.map (·.2)).flatten, lines := pairs.map (·.1) })

/-- `match_fragment` (builtin-apply.c:1658): position pre-checks, the quick
24-bit hash filter, the exact byte comparison (with the end-anchor length
equation under `match_end`), and —  only when the whitespace policy is
`fix` — the per-line whitespace-fuzz comparison followed by
`update_pre_post_images`.  Returns the (possibly fuzz-updated) preimage and
postimage on a match. -/
def matchFragment (fix : List Nat → List Nat) (fuzz : Bool)
    (img pre post : Image) (tryOff tryLno : Nat) (mb me : Bool) :
    Option (Image × Image) :=
  if pre.nr + tryLno > img.nr then none
  else if mb ∧ tryLno ≠ 0 then none
  else if me ∧ pre.nr + tryLno ≠ img.nr then none
  else if pre.lines.map (·.hash) ≠ ((img.lines.drop tryLno).take pre.nr).map (·.hash) then
    none
  else if (if me then tryOff + pre.len = img.len else tryOff + pre.len ≤ img.len)
      ∧ (img.buf.drop tryOff).take pre.len = pre.buf then
    some (pre, post)
  else if fuzz = false then none
  else
    let tgtLens := ((img.lines.drop tryLno).take pre.nr).map (·.len)
    let preSlices := sliceAt pre.buf (pre.lines.map (·.len))
    let tgtSlices := sliceAt (img.buf.drop tryOff) tgtLens
    if preSlices.map fix = tgtSlices.map fix then
      updatePrePostImages pre post (preSlices.map fix).flatten
    else none

/-- Length of line `i` of an image, from its line table. -/
def lenAt (img : Image) (i : Nat) : Nat := ((img.lines[i]?).map (·.len)).getD 0

/-- Byte offset of line `k`: the sum of the lengths of the lines before it
(the `for (i = 0; i < line; i++) try += img->line[i].len` of `find_pos`). -/
def sumLensTake (img : Image) (k : Nat) : Nat := ((img.lines.take k).map (·.len)).sum

/-- The bidirectional scan of `find_pos` (builtin-apply.c:1802): try the
current position; on failure step the forward pointer (even `i`) or the
backward pointer (odd `i`), skipping an exhausted direction, and stop when
both are exhausted.  State: backward line/offset, forward line/offset,
current try line/offset, the parity counter `i`, plus fuel (the loop makes
at most `img.nr + 1` attempts). -/
def fpGo (fix : List Nat → List Nat) (fuzz : Bool) (img pre post : Image)
    (mb me : Bool) :
    Nat → Nat → Nat → Nat → Nat → Nat → Nat → Nat → Option (Nat × Image × Image)
  | 0, _, _, _, _, _, _, _ => none
  | fuel + 1, b, bOff, f, fOff, t, tOff, i =>
    match matchFragment fix fuzz img pre post tOff t mb me with
    | some (pre', post') => some (t, pre', post')
    | none =>
      if b = 0 ∧ f = img.nr then none
      else if i % 2 = 1 then
        if b = 0 then
          fpGo fix fuzz img pre post mb me fuel
            b bOff (f + 1) (fOff + lenAt img f) (f + 1) (fOff + lenAt img f) (i + 2)
        else
          fpGo fix fuzz img pre post mb me fuel
            (b - 1) (bOff - lenAt img (b - 1)) f fOff (b - 1) (bOff - lenAt img (b - 1)) (i + 1)
      else
        if f = img.nr then
          fpGo fix fuzz img pre post mb me fuel
            (b - 1) (bOff - lenAt img (b - 1)) f fOff (b - 1) (bOff - lenAt img (b - 1)) (i + 2)
        else
          fpGo fix fuzz img pre post mb me fuel
            b bOff (f + 1) (fOff + lenAt img f) (f + 1) (fOff + lenAt img f) (i + 1)

/-- `find_pos` (builtin-apply.c:1761): give up if the preimage has more
lines than the image; force the start line to 0 under `match_beginning`
and to `img.nr - pre.nr` under `match_end`; clamp (a negative `int` start
converts to a huge `size_t`, so it also clamps to `img.nr`); compute the
byte offset of the start line; then run the bidirectional scan. -/
def clampStart (img pre : Image) (line : Int) (mb me : Bool) : Nat :=
  let lineAdj : Int := if mb then 0 else if me then (img.nr - pre.nr : Nat) else line
  if lineAdj < 0 ∨ (img.nr : Int) < lineAdj then img.nr else lineAdj.toNat

def findPos (fix : List Nat → List Nat) (fuzz : Bool) (img pre post : Image)
    (line : Int) (mb me : Bool) : Option (Nat × Image × Image) :=
  if pre.nr > img.nr then none
  else
    let l0 : Nat := clampStart img pre line mb me
    let t0 : Nat := sumLensTake img l0
    fpGo fix fuzz img pre post mb me (img.nr + 1) l0 t0 l0 t0 l0 t0 0

/-- One context-reduction step of `apply_one_fragment`
(builtin-apply.c:2068): when `leading >= trailing` drop the first line of
both images and step the anchor back; then, when (the possibly already
decremented) `leading` is still smaller than `trailing`, drop the last
line of both. -/
def reduceStep (pre post : Image) (pos : Int) (leading trailing : Nat) :
    Image × Image × Int × Nat × Nat :=
  let s1 :=
    if leading ≥ trailing then
      (removeFirstLine pre, removeFirstLine post, pos - 1, leading - 1)
    else (pre, post, pos, leading)
  if trailing > s1.2.2.2 then
    (removeLastLine s1.1, removeLastLine s1.2.1, s1.2.2.1, s1.2.2.2, trailing - 1)
  else (s1.1, s1.2.1, s1.2.2.1, s1.2.2.2, trailing)

/-- The retry loop of `apply_one_fragment` (builtin-apply.c:2047): look for
a position; on failure stop when both context counts are within
`p_context`; otherwise first drop `match_beginning`/`match_end` once if
either is set, else reduce the context and retry.  Returns the applied
position, the final images and the final context counts. -/
def searchLoop (fix : List Nat → List Nat) (fuzz : Bool) (img : Image) (pContext : Nat) :
    Nat → Image → Image → Int → Nat → Nat → Bool → Bool →
    Option (Nat × Image × Image × Nat × Nat)
  | 0, _, _, _, _, _, _, _ => none
  | fuel + 1, pre, post, pos, leading, trailing, mb, me =>
    match findPos fix fuzz img pre post pos mb me with
    | some (p, pre', post') => some (p, pre', post', leading, trailing)
    | none =>
      if leading ≤ pContext ∧ trailing ≤ pContext then none
      else if mb || me then
        searchLoop fix fuzz img pContext fuel pre post pos leading trailing false false
      else
        let s := reduceStep pre post pos leading trailing
        searchLoop fix fuzz img pContext fuel s.1 s.2.1 s.2.2.1 s.2.2.2.1 s.2.2.2.2 false false

/-- The option and mode state `apply_one_fragment` reads: `apply_in_reverse`,
`no_add`, whether `ws_error_action == correct_ws_error`, whether
`whitespace_error` is nonzero, `unidiff_zero`, the per-patch
`inaccurate_eof` bit, and `p_context` (default `UINT_MAX`). -/
structure Flags where
  reverse : Bool
  noAdd : Bool
  wsActionFix : Bool
  wsErr : Bool
  unidiffZero : Bool
  inaccurateEof : Bool
  pContext : Nat
  deriving DecidableEq, Repr

def defaultFlags : Flags :=
  { reverse := false, noAdd := false, wsActionFix := false, wsErr := false
    unidiffZero := false, inaccurateEof := false, pContext := 2 ^ 32 - 1 }

/-- `defaultFlags` with `apply_in_reverse` set (`--reverse`). -/
def reverseFlags : Flags := { defaultFlags with reverse := true }

/-- A text hunk as `apply_one_fragment` consumes it: the `@@` header
numbers, the context counts the parser recorded, and the body lines
(each line of `fragment->patch`, split at newlines). -/
structure Frag where
  oldpos : Nat
  oldlines : Nat
  newpos : Nat
  newlines : Nat
  leading : Nat
  trailing : Nat
  body : List (List Nat)
  deriving DecidableEq, Repr

/-- `reverse_patches` (builtin-apply.c:1508) on one fragment: swap
`newpos`/`oldpos` and `newlines`/`oldlines`; the body text and the
context counts are left alone. -/
def reverseFrag (f : Frag) : Frag :=
  { f with oldpos := f.newpos, newpos := f.oldpos
           oldlines := f.newlines, newlines := f.oldlines }

/-- `reverse_patches` over a fragment list. -/
def reverseFrags (fs : List Frag) : List Frag := fs.map reverseFrag

/-- The line-classification loop of `apply_one_fragment`
(builtin-apply.c:1923): walk the body lines, swap `+`/`-` under
`apply_in_reverse`, and append to the preimage and postimage accumulators
(content bytes plus LINE_COMMON flag); `plen` drops the trailing newline
when the next line starts with `\`; `+` lines are dropped under `--no-add`
and whitespace-fixed when the policy is `fix` and errors were seen; the
counter tracks the run of added blank lines at the end. -/
def buildLoop (fl : Flags) (fix : List Nat → List Nat) :
    List (List Nat) → List (List Nat × Nat) → List (List Nat × Nat) → Nat →
    Option (List (List Nat × Nat) × List (List Nat × Nat) × Nat)
  | [], preA, postA, nbl => some (preA, postA, nbl)
  | l :: rest, preA, postA, nbl =>
    if l = [] then some (preA, postA, nbl)
    else
      let hasBS : Bool := match rest.head? with
        | some nl => nl.head? = some 92
        | none => false
      let plen := l.length - 1 - (if hasBS then 1 else 0)
      let first0 := l.head?.getD 0
      let first := if fl.reverse then
          (if first0 = 45 then 43 else if first0 = 43 then 45 else first0)
        else first0
      if first = 10 then
        if l.length = 1 ∧ hasBS then buildLoop fl fix rest preA postA 0
        else buildLoop fl fix rest (preA ++ [([10], 1)]) (postA ++ [([10], 1)]) 0
      else if first = 32 ∨ first = 45 then
        let content := (l.drop 1).take plen
        let preA' := preA ++ [(content, if first = 32 then 1 else 0)]
        if first = 45 then buildLoop fl fix rest preA' postA 0
        else buildLoop fl fix rest preA' (postA ++ [(content, 1)]) 0
      else if first = 43 then
        if fl.noAdd then buildLoop fl fix rest preA postA 0
        else
          let content0 := (l.drop 1).take plen
          let content := if fl.wsErr ∧ fl.wsActionFix then fix content0 else content0
          let ab : Bool := content.length = 1 ∧ content.getLast? = some 10
          buildLoop fl fix rest preA (postA ++ [(content, 0)]) (if ab then nbl + 1 else 0)
      else if first = 64 ∨ first = 92 then buildLoop fl fix rest preA postA 0
      else none

/-- Build the preimage and postimage of a hunk (with the count of trailing
added blank lines), as the first half of `apply_one_fragment` does. -/
def buildImages (fl : Flags) (fix : List Nat → List Nat) (body : List (List Nat)) :
    Option (Image × Image × Nat) :=
  (buildLoop fl fix body [] [] 0).map fun r => (imgOfTagged r.1, imgOfTagged r.2.1, r.2.2)

/-- `match_beginning` (builtin-apply.c:2028). -/
def matchBeginningFlag (fl : Flags) (f : Frag) : Bool :=
  (f.oldpos == 0) || (f.oldpos == 1 && !fl.unidiffZero)

/-- `match_end` (builtin-apply.c:2037). -/
def matchEndFlag (fl : Flags) (f : Frag) : Bool :=
  !fl.unidiffZero && (f.trailing == 0)

/-- Remove the last `n` lines of an image (the trailing-blank trim loop). -/
def removeLastN : Nat → Image → Image
  | 0, img => img
  | n + 1, img => removeLastN n (removeLastLine img)

/-- `apply_one_fragment` (builtin-apply.c:1903): build the two images from
the body; under `--inaccurate-eof` drop a trailing newline byte from both
buffers (the line tables are not touched); derive `match_beginning`,
`match_end` and the anchor `newpos - 1`; run the search/context-reduction
loop; on success trim trailing added blank lines under the `fix`
whitespace policy when the hunk ends at the end of the image, and splice
with `update_image`.  `none` is the failing (nonzero) return. -/
def applyOneFragment (fix : List Nat → List Nat) (fl : Flags) (img : Image)
    (f : Frag) : Option Image :=
  match buildImages fl fix f.body with
  | none => none
  | some (pre0, post0, nbl) =>
    let trim : Bool := fl.inaccurateEof ∧ pre0.buf ≠ [] ∧ pre0.buf.getLast? = some 10
      ∧ post0.buf ≠ [] ∧ post0.buf.getLast? = some 10
    let pre := if trim then { pre0 with buf := pre0.buf.dropLast } else pre0
    let post := if trim then { post0 with buf := post0.buf.dropLast } else post0
    let mb := matchBeginningFlag fl f
    let me := matchEndFlag fl f
    let pos : Int := if f.newpos = 0 then 0 else (f.newpos : Int) - 1
    match searchLoop fix fl.wsActionFix img fl.pContext (f.leading + f.trailing + 2)
        pre post pos f.leading f.trailing mb me with
    | none => none
    | some (p, pre', post', _, _) =>
      let post'' := if fl.wsActionFix ∧ nbl > 0 ∧ post'.nr + p = img.nr
        then removeLastN nbl post' else post'
      some (update_image img p pre' post'')

/-- The hunk loop of `apply_fragments` (builtin-apply.c:2240): apply each
fragment in turn; a failing fragment aborts with `none` unless
`apply_with_reject` is set, in which case it is marked rejected and the
loop continues on the unchanged image.  Returns the final image and the
per-fragment rejected marks. -/
def applyFragments (fix : List Nat → List Nat) (fl : Flags) (withReject : Bool) :
    Image → List Frag → Option (Image × List Bool)
  | img, [] => some (img, [])
  | img, f :: fs =>
    match applyOneFragment fix fl img f with
    | some img' =>
      match applyFragments fix fl withReject img' fs with
      | some (r, bs) => some (r, false :: bs)
      | none => none
    | none =>
      if withReject then
        match applyFragments fix fl withReject img fs with
        | some (r, bs) => some (r, true :: bs)
        | none => none
      else none

/-! ## Generated patches

`diff` itself is not part of this repository, so the class of patches
"generated from F to F'" is modelled here: a hunk body is a list of
tagged lines (context, deletion, addition) rendered with the ` `/`-`/`+`
marker bytes, and a patch is a sequence of such hunks walking the old and
new line lists left to right, with the `@@` positions and context counts
diff records for them. -/

/-- Tag of one generated hunk body line. -/
inductive Tag where
  | ctx
  | del
  | add
  deriving DecidableEq, Repr

/-- Render one tagged line as the raw body line `apply_one_fragment` sees:
the marker byte (` `, `-` or `+`) followed by the line's bytes. -/
def renderLine : Tag × List Nat → List Nat
  | (Tag.ctx, c) => 32 :: c
  | (Tag.del, c) => 45 :: c
  | (Tag.add, c) => 43 :: c

/-- One side of a tagged hunk body, with the LINE_COMMON flags `buildLoop`
assigns: context lines appear on both sides with flag 1; `useAdd` selects
the new side (keep `+` lines, flag 0) over the old side (keep `-` lines,
flag 0). -/
def sideTagged (useAdd : Bool) : List (Tag × List Nat) → List (List Nat × Nat)
  | [] => []
  | (Tag.ctx, c) :: r => (c, 1) :: sideTagged useAdd r
  | (Tag.del, c) :: r =>
    if useAdd then sideTagged useAdd r else (c, 0) :: sideTagged useAdd r
  | (Tag.add, c) :: r =>
    if useAdd then (c, 0) :: sideTagged useAdd r else sideTagged useAdd r

/-- The line contents of one side of a tagged hunk body. -/
def sideC (useAdd : Bool) (tg : List (Tag × List Nat)) : List (List Nat) :=
  (sideTagged useAdd tg).map (·.1)

/-- Length of the run of leading context lines of a tagged body. -/
def leadCtx : List (Tag × List Nat) → Nat
  | (Tag.ctx, _) :: r => leadCtx r + 1
  | _ => 0

/-- Length of the run of trailing context lines of a tagged body. -/
def trailCtx (tg : List (Tag × List Nat)) : Nat := leadCtx tg.reverse

/-- `GenPatch o n O N frags`: with `o` old-side and `n` new-side lines
already consumed by earlier hunks, the hunk list `frags` rewrites the
remaining old lines `O` into the remaining new lines `N`.  A patch ends
when the remaining suffixes agree; a hunk skips `S` unchanged lines, then
covers a tagged body with at least one line on each side, records the
1-based `@@` positions and the parser's context counts, and a hunk without
trailing context is one that reaches the end of both files (as `diff`
only omits trailing context at end of file).  The first hunk of a patch
starts at the top on both sides (the positions `0 → 0` implications). -/
inductive GenPatch : Nat → Nat → List (List Nat) → List (List Nat) →
    List Frag → Prop where
  | last : ∀ (o n : Nat) (R : List (List Nat)), GenPatch o n R R []
  | step : ∀ (o n : Nat) (S : List (List Nat)) (tg : List (Tag × List Nat))
      (O' N' : List (List Nat)) (frags : List Frag),
      sideC false tg ≠ [] →
      sideC true tg ≠ [] →
      (o + S.length = 0 → n + S.length = 0) →
      (n + S.length = 0 → o + S.length = 0) →
      (trailCtx tg = 0 → O' = [] ∧ N' = []) →
      GenPatch (o + S.length + (sideC false tg).length)
        (n + S.length + (sideC true tg).length) O' N' frags →
      GenPatch o n (S ++ sideC false tg ++ O') (S ++ sideC true tg ++ N')
        (⟨o + S.length + 1, (sideC false tg).length,
          n + S.length + 1, (sideC true tg).length,
          leadCtx tg, trailCtx tg, tg.map renderLine⟩ :: frags)

/-! ## Parser: the hunk-body loop of `parse_fragment` -/

/-- `unsigned long` wrap when decrementing: `0 - 1` wraps to `2^64 - 1`.
The second component reports that a wrap happened. -/
def decUL (c : Nat) : Nat × Bool :=
  if c = 0 then (2 ^ 64 - 1, true) else (c - 1, false)

/-- The body loop of `parse_fragment` (builtin-apply.c:1120): classify each
line by its first byte, maintain the `oldlines`/`newlines` countdown
(`unsigned long`, so decrementing zero wraps; the Bool records whether any
wrap happened), the `leading`/`trailing` context counts, the
`added`/`deleted` counts, and the whitespace-violation counter (`+` lines,
or `-` lines in reverse mode, are checked unless the policy is `nowarn`).
The loop stops successfully once both countdowns are zero; running out of
input first, or a malformed line, is the `-1` return, `none`. -/
def parseFragLoop (isRev wsNowarn : Bool) (wsCheck : List Nat → Bool) :
    List (List Nat) → Nat → Nat → Nat → Nat → Nat → Nat → Nat → Bool →
    Option (Nat × Nat × Nat × Nat × Nat × Bool)
  | [], oldl, newl, leading, trailing, added, deleted, ws, wrapped =>
    if oldl = 0 ∧ newl = 0 then some (leading, trailing, added, deleted, ws, wrapped)
    else none
  | l :: rest, oldl, newl, leading, trailing, added, deleted, ws, wrapped =>
    if oldl = 0 ∧ newl = 0 then some (leading, trailing, added, deleted, ws, wrapped)
    else if l = [] ∨ l.getLast? ≠ some 10 then none
    else
      let first := l.head?.getD 0
      if first = 10 ∨ first = 32 then
        let o := decUL oldl
        let n := decUL newl
        parseFragLoop isRev wsNowarn wsCheck rest o.1 n.1
          (if deleted = 0 ∧ added = 0 then leading + 1 else leading) (trailing + 1)
          added deleted ws (wrapped || o.2 || n.2)
      else if first = 45 then
        let o := decUL oldl
        parseFragLoop isRev wsNowarn wsCheck rest o.1 newl leading 0
          added (deleted + 1)
          (ws + if isRev ∧ ¬wsNowarn ∧ wsCheck l then 1 else 0) (wrapped || o.2)
      else if first = 43 then
        let n := decUL newl
        parseFragLoop isRev wsNowarn wsCheck rest oldl n.1 leading 0
          (added + 1) deleted
          (ws + if ¬isRev ∧ ¬wsNowarn ∧ wsCheck l then 1 else 0) (wrapped || n.2)
      else if first = 92 then
        if l.length < 12 ∨ l.take 2 ≠ [92, 32] then none
        else parseFragLoop isRev wsNowarn wsCheck rest oldl newl leading trailing
          added deleted ws wrapped
      else none

/-! ## Parser: base-85 data lines of `parse_binary_hunk` -/

/-- The length byte of a base-85 data line (builtin-apply.c:1347):
`'A'..'Z'` is 1..26, `'a'..'z'` is 27..52, anything else is corrupt. -/
def lengthByteVal (b : Nat) : Option Nat :=
  if 65 ≤ b ∧ b ≤ 90 then some (b - 65 + 1)
  else if 97 ≤ b ∧ b ≤ 122 then some (b - 97 + 27)
  else none

/-- `max_byte_length = (llen - 2) / 5 * 4` for a data line of `llen` bytes
(length byte + 5k base-85 digits + newline). -/
def maxByteLen (llen : Nat) : Nat := (llen - 2) / 5 * 4

/-- The data-line loop of `parse_binary_hunk` (builtin-apply.c:1329): a
1-byte line terminates the hunk; otherwise the line must be at least 7
bytes with length ≡ 2 (mod 5), its declared byte count must decode and
satisfy `byte_length ≤ max_byte_length` and
`byte_length > max_byte_length - 4`, and the base-85 payload must decode
(`decode_85` lives in base85.c, outside this tree, so it is a parameter).
Any failure is the `goto corrupt` path, `none` for the whole hunk. -/
def parseB85Loop (dec85 : List Nat → Nat → Option (List Nat)) :
    List (List Nat) → List Nat → Option (List Nat)
  | [], _ => none
  | l :: rest, acc =>
    if l.length = 1 then some acc
    else if l.length < 7 ∨ (l.length - 2) % 5 ≠ 0 then none
    else
      match lengthByteVal (l.head?.getD 0) with
      | none => none
      | some bl =>
        if maxByteLen l.length < bl ∨ bl ≤ maxByteLen l.length - 4 then none
        else
          match dec85 (l.drop 1) bl with
          | none => none
          | some bytes => parseB85Loop dec85 rest (acc ++ bytes)

/-! ## Run-level whitespace-error gating -/

/-- `ws_error_action` (builtin-apply.c:55). -/
inductive WsAction
  | nowarn
  | warn
  | die
  | fixws
  deriving DecidableEq, Repr

/-- builtin-apply.c:3155: after parsing, `if (whitespace_error &&
(ws_error_action == die_on_ws_error)) apply = 0;` — the resulting value of
the `apply` flag. -/
def applyPatchGate (wsAction : WsAction) (wsErrCount : Nat) (applyFlag : Bool) : Bool :=
  if wsErrCount ≠ 0 ∧ wsAction = WsAction.die then false else applyFlag

/-- builtin-apply.c:3167: `check_patch_list` (in-memory application) runs
only when `check || apply`. -/
def applicationPerformed (applyFlag check : Bool) : Bool := applyFlag || check

/-- builtin-apply.c:3172: `write_out_results` runs only when `apply`. -/
def writeOutPerformed (applyFlag : Bool) : Bool := applyFlag

/-- builtin-apply.c:3368: at end of run, `die` (nonzero exit) when
whitespace errors were seen under `error`; otherwise the exit status is
`!!errs`. -/
def cmdApplyExitNonzero (wsAction : WsAction) (wsErrCount : Nat) (errs : Bool) : Bool :=
  if wsErrCount ≠ 0 ∧ wsAction = WsAction.die then true else errs

/-! ## File-state manager: preimage redirection through the filename table -/

/-- `item->util` in `fn_table` (builtin-apply.c:2288): a prior patch with
its result and new mode, or the `PATH_WAS_DELETED` / `PATH_TO_BE_DELETED`
sentinels. -/
inductive FnEntry
  | patched (result : List Nat) (newMode : Nat)
  | wasDeleted
  | toBeDeleted
  deriving DecidableEq, Repr

/-- Where `apply_data` (builtin-apply.c:2346) takes the preimage bytes from. -/
inductive PreSrc
  | prior (bytes : List Nat)
  | errDeleted
  | index
  | worktree
  | blank
  deriving DecidableEq, Repr

/-- Where `check_preimage` (builtin-apply.c:2431) takes `st_mode` from. -/
inductive ModeSrc
  | fromPrior (m : Nat)
  | errDeleted
  | fromStatOrIndex
  deriving DecidableEq, Repr

/-- `in_fn_table` (builtin-apply.c:2274): `NULL` name finds nothing. -/
def inFnTable (table : List (String × FnEntry)) (name : Option String) : Option FnEntry :=
  name.bind fun n => (table.find? fun e => e.1 == n).map (·.2)

/-- The preimage-source dispatch of `apply_data` (builtin-apply.c:2354):
the filename-table lookup is consulted only when the patch is neither a
copy nor a rename and the entry is not `PATH_TO_BE_DELETED`; then
`PATH_WAS_DELETED` is an error and a prior patch supplies its in-memory
result; otherwise `--cached` reads the index, else a present `old_name`
reads the working tree, else the buffer starts empty. -/
def applyDataSource (isCopy isRename cached : Bool) (oldName : Option String)
    (table : List (String × FnEntry)) : PreSrc :=
  if (isCopy || isRename) = false ∧ (inFnTable table oldName).isSome
      ∧ inFnTable table oldName ≠ some FnEntry.toBeDeleted then
    if inFnTable table oldName = some FnEntry.wasDeleted then PreSrc.errDeleted
    else
      match inFnTable table oldName with
      | some (FnEntry.patched r _) => PreSrc.prior r
      | _ => PreSrc.blank
  else if cached then PreSrc.index
  else if oldName.isSome then PreSrc.worktree
  else PreSrc.blank

/-- The `st_mode`-source dispatch of `check_preimage` (builtin-apply.c:2449):
same guard; a hit takes `tpatch->new_mode`, otherwise the mode comes from
`lstat`/the index entry. -/
def checkPreimageModeSource (isCopy isRename : Bool) (oldName : Option String)
    (table : List (String × FnEntry)) : ModeSrc :=
  if (isCopy || isRename) = false ∧ (inFnTable table oldName).isSome
      ∧ inFnTable table oldName ≠ some FnEntry.toBeDeleted then
    if inFnTable table oldName = some FnEntry.wasDeleted then ModeSrc.errDeleted
    else
      match inFnTable table oldName with
      | some (FnEntry.patched _ m) => ModeSrc.fromPrior m
      | _ => ModeSrc.fromStatOrIndex
  else ModeSrc.fromStatOrIndex

/-! ## Spec-side definitions, written from the claims' wording -/

/-- First `some` value of `g` along a list. -/
def firstSomeMap (g : α → Option β) : List α → Option β
  | [] => none
  | x :: xs =>
    match g x with
    | some y => some y
    | none => firstSomeMap g xs

/-- Alternate two candidate streams, continuing with the other when one
runs out. -/
def interleaveL : List Nat → List Nat → List Nat
  | [], ys => ys
  | x :: xs, [] => x :: xs
  | x :: xs, y :: ys => x :: y :: interleaveL xs ys

/-- Forward candidates after the anchor: `f+1, …, nr`. -/
def fwdCands (f nr : Nat) : List Nat := List.range' (f + 1) (nr - f)

/-- Backward candidates before the anchor: `b-1, …, 0`. -/
def bwdCands (b : Nat) : List Nat := (List.range b).reverse

/-- The match test at one candidate line, with the byte offset recomputed
from the line table. -/
def matchAtLine (fix : List Nat → List Nat) (fuzz : Bool) (img pre post : Image)
    (mb me : Bool) (u : Nat) : Option (Nat × Image × Image) :=
  (matchFragment fix fuzz img pre post (sumLensTake img u) u mb me).map
    fun pp => (u, pp.1, pp.2)

/-- Candidate order of the code: anchor, anchor+1, anchor-1, anchor+2, … -/
def codeCands (start nr : Nat) : List Nat :=
  start :: interleaveL (fwdCands start nr) (bwdCands start)

/-- Candidate order claimed by the spec: anchor, anchor-1, anchor+1,
anchor-2, … -/
def claimCands (start nr : Nat) : List Nat :=
  start :: interleaveL (bwdCands start) (fwdCands start nr)

/-- C4 as the claim words it: `find_pos` returns the first match along the
anchor, anchor-1, anchor+1, … order. -/
def claimFindPos (fix : List Nat → List Nat) (fuzz : Bool) (img pre post : Image)
    (line : Int) (mb me : Bool) : Option (Nat × Image × Image) :=
  if pre.nr > img.nr then none
  else
    firstSomeMap (matchAtLine fix fuzz img pre post mb me)
      (claimCands (clampStart img pre line mb me) img.nr)

/-- C6 as the claim words it: every hunk is attempted against the image as
it stood after the last successful hunk; a failed hunk is marked rejected
and leaves the image unmodified. -/
def rejectFold (fix : List Nat → List Nat) (fl : Flags) :
    Image → List Frag → Image × List Bool
  | img, [] => (img, [])
  | img, f :: fs =>
    match applyOneFragment fix fl img f with
    | some img' =>
      let r := rejectFold fix fl img' fs
      (r.1, false :: r.2)
    | none =>
      let r := rejectFold fix fl img fs
      (r.1, true :: r.2)

/-- Forget the whitespace counter of a `parseFragLoop` result. -/
def dropWsCount (r : Nat × Nat × Nat × Nat × Nat × Bool) :
    Nat × Nat × Nat × Nat × Bool :=
  (r.1, r.2.1, r.2.2.1, r.2.2.2.1, r.2.2.2.2.2)

/-- A base-85 data line whose declared byte count obeys the claim's bounds. -/
def goodDataLine (l : List Nat) : Prop :=
  ∃ bl, lengthByteVal (l.head?.getD 0) = some bl ∧
    maxByteLen l.length - 3 ≤ bl ∧ bl ≤ maxByteLen l.length

instance (l : List Nat) : Decidable (goodDataLine l) := by
  unfold goodDataLine
  rcases h : lengthByteVal (l.head?.getD 0) with _ | bl
  · exact Decidable.isFalse (by rintro ⟨bl, hbl, _⟩; simp [h] at hbl)
  · by_cases hb : maxByteLen l.length - 3 ≤ bl ∧ bl ≤ maxByteLen l.length
    · exact Decidable.isTrue ⟨bl, rfl, hb⟩
    · exact Decidable.isFalse (by
        rintro ⟨bl', hbl', hb'⟩
        cases hbl'
        exact hb hb')

/-- Structural shape check of a data line, before the length byte is read. -/
def dataLineShape (l : List Nat) : Prop :=
  7 ≤ l.length ∧ (l.length - 2) % 5 = 0

instance (l : List Nat) : Decidable (dataLineShape l) := by
  unfold dataLineShape; infer_instance

/-- A data line the loop consumes completely: not the terminating 1-byte
line, well shaped, in-bounds declared count, and decodable payload. -/
def consumableLine (dec85 : List Nat → Nat → Option (List Nat)) (l : List Nat) : Prop :=
  l.length ≠ 1 ∧ dataLineShape l ∧
    ∃ bl bts, lengthByteVal (l.head?.getD 0) = some bl ∧
      maxByteLen l.length - 3 ≤ bl ∧ bl ≤ maxByteLen l.length ∧
      dec85 (l.drop 1) bl = some bts

/-! ## Theorems -/

/-- The sequence of states the retry loop of `apply_one_fragment` visits,
per the amended C5: keep retrying while `leading > p_context` or
`trailing > p_context`; when `match_beginning` or `match_end` is set, drop
both once first; otherwise shrink the larger of leading/trailing — both
when they are equal — with `remove_first_line` (anchor decremented) and
`remove_last_line` on both images. -/
def specStates (pc : Nat) : Image → Image → Int → Nat → Nat → Bool → Bool →
    List (Image × Image × Int × Nat × Nat × Bool × Bool)
  | pre, post, pos, l, t, mb, me =>
    (pre, post, pos, l, t, mb, me) ::
      (if l ≤ pc ∧ t ≤ pc then []
       else if mb || me then specStates pc pre post pos l t false false
       else
         specStates pc (reduceStep pre post pos l t).1 (reduceStep pre post pos l t).2.1
           (reduceStep pre post pos l t).2.2.1 (reduceStep pre post pos l t).2.2.2.1
           (reduceStep pre post pos l t).2.2.2.2 false false)
  termination_by _ _ _ l t mb me => (if mb || me then 1 else 0) + l + t
  decreasing_by
  · rename_i hpc hflag
    rw [if_pos hflag]
    simp only [Bool.or_self, Bool.false_eq_true, if_false]
    omega
  · rename_i hpc hflag
    rw [if_neg hflag]
    simp only [Bool.or_self, Bool.false_eq_true, if_false]
    have hor : 0 < l ∨ 0 < t := by
      by_contra hc
      push_neg at hc
      exact hpc (by omega)
    have hlt : (reduceStep pre post pos l t).2.2.2.1 +
        (reduceStep pre post pos l t).2.2.2.2 < l + t := by
      unfold reduceStep
      by_cases h1 : l ≥ t
      · rw [if_pos h1]
        by_cases h2 : t > l - 1
        · rw [if_pos h2]; simp only; omega
        · rw [if_neg h2]; simp only; omega
      · rw [if_neg h1]
        by_cases h2 : t > l
        · rw [if_pos h2]; simp only; omega
        · rw [if_neg h2]; simp only; omega
    omega

theorem splitGo_flatten : ∀ (l acc : List Nat),
    (splitGo acc l).flatten = acc.reverse ++ l
  | [], acc => by
    by_cases h : acc = []
    · simp [splitGo, h]
    · simp [splitGo, h]
  | b :: rest, acc => by
    rw [splitGo]
    by_cases h : b = 10
    · simp only [if_pos h, List.flatten_cons, splitGo_flatten rest []]
      simp [h]
    · rw [if_neg h, splitGo_flatten rest (b :: acc)]
      simp

theorem splitLinesB_flatten (l : List Nat) : (splitLinesB l).flatten = l := by
  rw [splitLinesB, splitGo_flatten]
  simp

theorem sliceAt_of_lengths : ∀ LL : List (List Nat),
    sliceAt LL.flatten (LL.map List.length) = LL
  | [] => rfl
  | l :: rest => by
    simp only [List.flatten_cons, List.map_cons, sliceAt, List.take_left, List.drop_left]
    rw [sliceAt_of_lengths rest]

theorem imgRep_imageWF {img : Image} {LL : List (List Nat)} (h : ImgRep img LL) :
    imageWF img := by
  obtain ⟨hbuf, hlen, hhash⟩ := h
  constructor
  · rw [hlen, hbuf, List.length_flatten]
  · rw [hhash, hlen, hbuf, sliceAt_of_lengths]

theorem flatten_sliceAt : ∀ (lens buf : List Nat), lens.sum = buf.length →
    (sliceAt buf lens).flatten = buf
  | [], buf, h => by
    simp only [List.sum_nil] at h
    simp [sliceAt, List.eq_nil_of_length_eq_zero h.symm]
  | n :: rest, buf, h => by
    simp only [List.sum_cons] at h
    have hn : n ≤ buf.length := le_trans (Nat.le_add_right _ _) (le_of_eq h)
    have hrest : rest.sum = (buf.drop n).length := by
      rw [List.length_drop]; omega
    simp only [sliceAt, List.flatten_cons, flatten_sliceAt rest (buf.drop n) hrest,
      List.take_append_drop]

theorem map_length_sliceAt : ∀ (lens buf : List Nat), lens.sum ≤ buf.length →
    (sliceAt buf lens).map List.length = lens
  | [], _, _ => rfl
  | n :: rest, buf, h => by
    simp only [List.sum_cons] at h
    have hn : n ≤ buf.length := le_trans (Nat.le_add_right _ _) h
    have hrest : rest.sum ≤ (buf.drop n).length := by
      rw [List.length_drop]; omega
    simp only [sliceAt, List.map_cons, List.length_take,
      map_length_sliceAt rest (buf.drop n) hrest, Nat.min_eq_left hn]

theorem imageWF_imgRep {img : Image} (h : imageWF img) :
    ImgRep img (sliceAt img.buf (img.lines.map (·.len))) := by
  obtain ⟨hsum, hhash⟩ := h
  exact ⟨(flatten_sliceAt _ _ hsum).symm,
    (map_length_sliceAt _ _ (le_of_eq hsum)).symm, hhash⟩

theorem interleaveL_cons : ∀ (xs ys : List Nat) (x : Nat),
    interleaveL (x :: xs) ys = x :: interleaveL ys xs
  | _, [], _ => rfl
  | xs, y :: ys, x => by
    rw [show interleaveL (x :: xs) (y :: ys) = x :: y :: interleaveL xs ys from rfl]
    rw [interleaveL_cons ys xs y]
  termination_by xs ys _ => xs.length + ys.length
  decreasing_by simp_wf; omega

theorem reduceStep_lt (pre post : Image) (pos : Int) (l t : Nat) (h : 0 < l ∨ 0 < t) :
    (reduceStep pre post pos l t).2.2.2.1 + (reduceStep pre post pos l t).2.2.2.2 <
      l + t := by
  unfold reduceStep
  by_cases h1 : l ≥ t
  · rw [if_pos h1]
    by_cases h2 : t > l - 1
    · rw [if_pos h2]; simp only; omega
    · rw [if_neg h2]; simp only; omega
  · rw [if_neg h1]
    by_cases h2 : t > l
    · rw [if_pos h2]; simp only; omega
    · rw [if_neg h2]; simp only; omega

/-- C3: for every text hunk, the Applier computes `match_beginning` as true
exactly when `old_pos` is 0, or `old_pos` is 1 with `unidiff_zero` unset;
and `match_end` as true exactly when `unidiff_zero` is unset and the
hunk's trailing context count is 0. -/
theorem c3_match_flags (fl : Flags) (f : Frag) :
    (matchBeginningFlag fl f = true ↔
      (f.oldpos = 0 ∨ (f.oldpos = 1 ∧ fl.unidiffZero = false))) ∧
    (matchEndFlag fl f = true ↔ (fl.unidiffZero = false ∧ f.trailing = 0)) := by
  constructor
  · simp [matchBeginningFlag]
  · simp [matchEndFlag, and_comm]

/-- C6: with `apply_with_reject` set, `apply_fragments` always succeeds,
each failing hunk is marked rejected and leaves the in-memory image
unmodified, and every later hunk is applied against the image as it stood
after the last successful hunk: the loop equals the skipping fold. -/
theorem c6_reject_isolates_failures (fix : List Nat → List Nat) (fl : Flags)
    (img : Image) (fs : List Frag) :
    applyFragments fix fl true img fs = some (rejectFold fix fl img fs) := by
  induction fs generalizing img with
  | nil => rfl
  | cons f fs ih =>
    rw [applyFragments, rejectFold]
    cases applyOneFragment fix fl img f with
    | some img' => simp only [ih img']
    | none => simp [ih img]

/-- C10: for a copy or rename patch, neither `apply_data` nor
`check_preimage` consults the filename table: the preimage bytes come from
the index (under `--cached`) or the working tree, and the mode from
`lstat`/the index, even when the table holds a prior patch's result for
`old_path`. -/
theorem c10_copy_rename_skips_fn_table (isCopy isRename cached : Bool)
    (oldName : Option String) (table : List (String × FnEntry))
    (h : isCopy = true ∨ isRename = true) :
    applyDataSource isCopy isRename cached oldName table =
      (if cached then PreSrc.index
       else if oldName.isSome then PreSrc.worktree else PreSrc.blank) ∧
    checkPreimageModeSource isCopy isRename oldName table = ModeSrc.fromStatOrIndex := by
  have hor : (isCopy || isRename) = true := by
    rcases h with h | h <;> simp [h]
  constructor
  · rw [applyDataSource, if_neg]
    rintro ⟨hfalse, -, -⟩
    rw [hor] at hfalse
    exact absurd hfalse (by decide)
  · rw [checkPreimageModeSource, if_neg]
    rintro ⟨hfalse, -, -⟩
    rw [hor] at hfalse
    exact absurd hfalse (by decide)

/-- Witness for C10: a rename patch whose `old_path` has a prior patched
entry in the table still reads the working tree. -/
theorem c10_copy_rename_skips_fn_table_witness :
    applyDataSource false true false (some "a") [("a", FnEntry.patched [1] 33188)] =
      PreSrc.worktree ∧
    checkPreimageModeSource false true (some "a") [("a", FnEntry.patched [1] 33188)] =
      ModeSrc.fromStatOrIndex := by
  have h := c10_copy_rename_skips_fn_table false true false (some "a")
    [("a", FnEntry.patched [1] 33188)] (Or.inr rfl)
  simpa using h

/-- The parse outcome of the hunk-body loop does not depend on the
whitespace policy or checker: only the violation counter does. -/
theorem parseFragLoop_ws_irrelevant :
    ∀ (lines : List (List Nat)) (isRev nw1 nw2 : Bool)
      (wc1 wc2 : List Nat → Bool) (o n l t a d ws1 ws2 : Nat) (w : Bool),
    (parseFragLoop isRev nw1 wc1 lines o n l t a d ws1 w).map dropWsCount =
      (parseFragLoop isRev nw2 wc2 lines o n l t a d ws2 w).map dropWsCount := by
  intro lines
  induction lines with
  | nil =>
    intros
    simp only [parseFragLoop]
    split
    · rfl
    · rfl
  | cons lhd rest ih =>
    intros
    simp only [parseFragLoop]
    split
    · rfl
    · split
      · rfl
      · split
        · exact ih ..
        · split
          · exact ih ..
          · split
            · exact ih ..
            · split
              · split
                · rfl
                · exact ih ..
              · rfl

/-- C7 counterexample: with one whitespace violation under
`--whitespace=error` and the default run flags (`apply = 1`, `check = 0`),
builtin-apply.c:3155 clears `apply`, so neither `check_patch_list` nor
`write_out_results` runs — the patches are not applied, contrary to the
claim — and the run then dies nonzero at builtin-apply.c:3378. -/
theorem c7_counterexample :
    applyPatchGate WsAction.die 1 true = false ∧
    applicationPerformed (applyPatchGate WsAction.die 1 true) false = false ∧
    writeOutPerformed (applyPatchGate WsAction.die 1 true) = false ∧
    cmdApplyExitNonzero WsAction.die 1 false = true := by
  decide

/-- C7 amended: under whitespace mode `error`, violations seen during
parsing do not abort parsing (the body loop's outcome is independent of
the whitespace policy — only the counter differs); but application is then
suppressed (`apply` is cleared, so no in-memory application and no
write-out happens), and the run exits non-zero at the end whenever a
violation was seen. -/
theorem c7_ws_error_suppresses_apply :
    (∀ (lines : List (List Nat)) (isRev nw1 nw2 : Bool)
      (wc1 wc2 : List Nat → Bool) (o n l t a d ws1 ws2 : Nat) (w : Bool),
      (parseFragLoop isRev nw1 wc1 lines o n l t a d ws1 w).map dropWsCount =
        (parseFragLoop isRev nw2 wc2 lines o n l t a d ws2 w).map dropWsCount) ∧
    (∀ (k : Nat) (applyFlag errs : Bool), k ≠ 0 →
      applyPatchGate WsAction.die k applyFlag = false ∧
      applicationPerformed (applyPatchGate WsAction.die k applyFlag) false = false ∧
      writeOutPerformed (applyPatchGate WsAction.die k applyFlag) = false ∧
      cmdApplyExitNonzero WsAction.die k errs = true) := by
  refine ⟨parseFragLoop_ws_irrelevant, ?_⟩
  intro k applyFlag errs hk
  simp [applyPatchGate, applicationPerformed, writeOutPerformed, cmdApplyExitNonzero, hk]

/-- Witness for the amended C7 at one violation. -/
theorem c7_ws_error_suppresses_apply_witness :
    applyPatchGate WsAction.die 2 true = false ∧
    applicationPerformed (applyPatchGate WsAction.die 2 true) false = false ∧
    writeOutPerformed (applyPatchGate WsAction.die 2 true) = false ∧
    cmdApplyExitNonzero WsAction.die 2 true = true :=
  c7_ws_error_suppresses_apply.2 2 true true (by decide)

theorem maxByteLen_ge_four {llen : Nat} (h7 : 7 ≤ llen) (hm : (llen - 2) % 5 = 0) :
    4 ≤ maxByteLen llen := by
  unfold maxByteLen
  omega

/-- C8: a base-85 data line of a binary hunk is accepted only when its
declared length byte is alphabetic and decodes to a count within
`[max_byte_length - 3, max_byte_length]`; and a line whose declared count
falls outside these bounds (or whose length byte is not alphabetic) makes
the whole hunk parse fail as corrupt. -/
theorem c8_b85_declared_length_bounds (dec85 : List Nat → Nat → Option (List Nat)) :
    (∀ (lines : List (List Nat)) (acc data : List Nat),
      parseB85Loop dec85 lines acc = some data →
      ∀ l ∈ lines.takeWhile (fun x => x.length != 1), goodDataLine l) ∧
    (∀ (pre : List (List Nat)) (l : List Nat) (rest : List (List Nat)) (acc : List Nat),
      (∀ x ∈ pre, consumableLine dec85 x) →
      l.length ≠ 1 → dataLineShape l → ¬ goodDataLine l →
      parseB85Loop dec85 (pre ++ l :: rest) acc = none) := by
  constructor
  · intro lines
    induction lines with
    | nil => intro acc data _ l hl; simp at hl
    | cons lhd rest ih =>
      intro acc data hparse l hl
      rw [parseB85Loop] at hparse
      by_cases h1 : lhd.length = 1
      · rw [if_pos h1] at hparse
        simp [List.takeWhile_cons, h1] at hl
      · rw [if_neg h1] at hparse
        simp only [List.takeWhile_cons, bne_iff_ne, ne_eq, h1, not_false_eq_true,
          if_pos, List.mem_cons] at hl
        by_cases hshape : lhd.length < 7 ∨ (lhd.length - 2) % 5 ≠ 0
        · rw [if_pos hshape] at hparse; exact absurd hparse (by simp)
        · rw [if_neg hshape] at hparse
          push_neg at hshape
          rcases hbl : lengthByteVal (lhd.head?.getD 0) with _ | bl
          · simp only [hbl] at hparse
            exact absurd hparse (by simp)
          · simp only [hbl] at hparse
            by_cases hb : maxByteLen lhd.length < bl ∨ bl ≤ maxByteLen lhd.length - 4
            · rw [if_pos hb] at hparse; exact absurd hparse (by simp)
            · rw [if_neg hb] at hparse
              push_neg at hb
              rcases hl with hl | hl
              · subst hl
                refine ⟨bl, hbl, ?_, hb.1⟩
                have h4 := maxByteLen_ge_four hshape.1 hshape.2
                omega
              · rcases hdec : dec85 (lhd.drop 1) bl with _ | bytes
                · simp only [hdec] at hparse
                  exact absurd hparse (by simp)
                · simp only [hdec] at hparse
                  exact ih _ _ hparse l hl
  · intro pre
    induction pre with
    | nil =>
      intro l rest acc _ h1 hshape hbad
      rw [List.nil_append, parseB85Loop, if_neg h1,
        if_neg (by push_neg; exact ⟨hshape.1, hshape.2⟩)]
      rcases hbl : lengthByteVal (l.head?.getD 0) with _ | bl
      · rfl
      · simp only
        rw [if_pos]
        have h4 := maxByteLen_ge_four hshape.1 hshape.2
        by_contra hcon
        push_neg at hcon
        exact hbad ⟨bl, hbl, by omega, hcon.1⟩
    | cons x pre' ih =>
      intro l rest acc hpre h1 hshape hbad
      obtain ⟨hx1, hxshape, bl, bts, hxbl, hxlo, hxhi, hxdec⟩ := hpre x (by simp)
      have h4 := maxByteLen_ge_four hxshape.1 hxshape.2
      rw [List.cons_append, parseB85Loop, if_neg hx1,
        if_neg (by push_neg; exact ⟨hxshape.1, hxshape.2⟩), hxbl]
      simp only
      rw [if_neg (by push_neg; exact ⟨hxhi, by omega⟩), hxdec]
      exact ih l rest (acc ++ bts) (fun y hy => hpre y (by simp [hy])) h1 hshape hbad

/-- C5 counterexample: at `leading = trailing = 1` (a tie) one reduction
step of the loop shrinks BOTH sides — it removes the first and the last
line of both images, decrements the anchor and zeroes both counters — so
"shrink whichever of leading/trailing is larger" (exactly one side per
retry, which would leave `leading' + trailing' = 1`) is false. -/
theorem c5_counterexample :
    reduceStep (imgOfTagged [([97, 10], 1), ([98, 10], 0), ([99, 10], 1)])
        (imgOfTagged [([97, 10], 1), ([98, 10], 0), ([99, 10], 1)]) 0 1 1 =
      (⟨[98, 10], [⟨2, hashLine [98, 10], 0⟩]⟩,
        ⟨[98, 10], [⟨2, hashLine [98, 10], 0⟩]⟩, -1, 0, 0) ∧
    ¬ ((0 : Nat) + 0 = 1 + 1 - 1) := by
  constructor
  · rfl
  · decide

/-- C5 amended: on a failed `find_pos`, the Applier stops when
`leading ≤ p_context` and `trailing ≤ p_context`; otherwise, if
`match_beginning` or `match_end` is set it clears both once and retries
before any shrinking; otherwise it shrinks the strictly larger of
leading/trailing — or both on a tie — via `remove_first_line` (with the
anchor decremented) and `remove_last_line` on both preimage and postimage:
the loop returns the first `find_pos` success along exactly this state
sequence. -/
theorem c5_fallback_scans_reduced_states (fix : List Nat → List Nat) (fuzz : Bool)
    (img : Image) (pc : Nat) :
    ∀ (fuel : Nat) (pre post : Image) (pos : Int) (l t : Nat) (mb me : Bool),
    (if mb || me then l + t + 2 else l + t + 1) ≤ fuel →
    searchLoop fix fuzz img pc fuel pre post pos l t mb me =
      firstSomeMap
        (fun st =>
          (findPos fix fuzz img st.1 st.2.1 st.2.2.1 st.2.2.2.2.2.1 st.2.2.2.2.2.2).map
            fun r => (r.1, r.2.1, r.2.2, st.2.2.2.1, st.2.2.2.2.1))
        (specStates pc pre post pos l t mb me) := by
  intro fuel
  induction fuel with
  | zero =>
    intro pre post pos l t mb me hfuel
    split at hfuel
    · omega
    · omega

  | succ fuel ih =>
    intro pre post pos l t mb me hfuel
    rw [searchLoop, specStates]
    rw [firstSomeMap]
    cases hfp : findPos fix fuzz img pre post pos mb me with
    | some r =>
      simp only [Option.map_some']
    | none =>
      simp only [Option.map_none']
      by_cases hpc : l ≤ pc ∧ t ≤ pc
      · rw [if_pos hpc, if_pos hpc]
        rfl
      · rw [if_neg hpc, if_neg hpc]
        by_cases hflag : mb || me
        · rw [if_pos hflag, if_pos hflag]
          apply ih
          rw [if_pos hflag] at hfuel
          simp only [Bool.or_self, Bool.false_eq_true, if_false]
          omega
        · rw [if_neg hflag, if_neg hflag]
          apply ih
          rw [if_neg hflag] at hfuel
          have := reduceStep_lt pre post pos l t
            (by by_contra hc; push_neg at hc; exact hpc (by omega))
          simp only [Bool.or_self, Bool.false_eq_true, if_false]
          omega

/-- Witness for the amended C5: a preimage that matches nowhere in a
one-line image, `p_context = 0`, `leading = trailing = 0`. -/
theorem c5_fallback_scans_reduced_states_witness :
    searchLoop id false (imgOfTagged [([97, 10], 0)]) 0 2
        (imgOfTagged [([98, 10], 0)]) (imgOfTagged [([99, 10], 0)]) 0 0 0 false false =
      firstSomeMap
        (fun st =>
          (findPos id false (imgOfTagged [([97, 10], 0)]) st.1 st.2.1 st.2.2.1
              st.2.2.2.2.2.1 st.2.2.2.2.2.2).map
            fun r => (r.1, r.2.1, r.2.2, st.2.2.2.1, st.2.2.2.2.1))
        (specStates 0 (imgOfTagged [([98, 10], 0)]) (imgOfTagged [([99, 10], 0)])
          0 0 0 false false) :=
  c5_fallback_scans_reduced_states id false (imgOfTagged [([97, 10], 0)]) 0 2
    (imgOfTagged [([98, 10], 0)]) (imgOfTagged [([99, 10], 0)]) 0 0 0 false false
    (by decide)

theorem sumLensTake_succ (img : Image) (k : Nat) :
    sumLensTake img (k + 1) = sumLensTake img k + lenAt img k := by
  unfold sumLensTake lenAt
  rw [List.take_succ]
  cases h : img.lines[k]? with
  | none => simp [h]
  | some r => simp [h]

theorem fwdCands_eq_cons {f nr : Nat} (h : f < nr) :
    fwdCands f nr = (f + 1) :: fwdCands (f + 1) nr := by
  unfold fwdCands
  have : nr - f = (nr - (f + 1)) + 1 := by omega
  rw [this, List.range'_succ]

theorem fwdCands_self (nr : Nat) : fwdCands nr nr = [] := by
  simp [fwdCands]

theorem bwdCands_eq_cons {b : Nat} (h : b ≠ 0) :
    bwdCands b = (b - 1) :: bwdCands (b - 1) := by
  unfold bwdCands
  have : b = (b - 1) + 1 := by omega
  rw [this, List.range_succ, List.reverse_append]
  simp

theorem bwdCands_zero : bwdCands 0 = [] := rfl

/-- Unfold one candidate of the spec-side match test. -/
theorem matchAtLine_eq (fix : List Nat → List Nat) (fuzz : Bool)
    (img pre post : Image) (mb me : Bool) (u : Nat) :
    matchAtLine fix fuzz img pre post mb me u =
      (matchFragment fix fuzz img pre post (sumLensTake img u) u mb me).map
        fun pp => (u, pp.1, pp.2) := rfl

/-- The bidirectional scan returns the first match along the interleaved
candidate stream: forward first after the current try when the parity
counter is even, backward first when it is odd. -/
theorem fpGo_eq_firstSome (fix : List Nat → List Nat) (fuzz : Bool)
    (img pre post : Image) (mb me : Bool) :
    ∀ (fuel b f t i : Nat), f ≤ img.nr → b + (img.nr - f) + 1 ≤ fuel →
    fpGo fix fuzz img pre post mb me fuel b (sumLensTake img b) f (sumLensTake img f)
        t (sumLensTake img t) i =
      firstSomeMap (matchAtLine fix fuzz img pre post mb me)
        (t :: (if i % 2 = 0 then interleaveL (fwdCands f img.nr) (bwdCands b)
               else interleaveL (bwdCands b) (fwdCands f img.nr))) := by
  intro fuel
  induction fuel with
  | zero => intro b f t i hf hfuel; omega
  | succ fuel ih =>
    intro b f t i hf hfuel
    rw [fpGo, firstSomeMap, matchAtLine_eq]
    cases hm : matchFragment fix fuzz img pre post (sumLensTake img t) t mb me with
    | some r => simp only [Option.map_some']
    | none =>
      simp only [Option.map_none']
      by_cases hend : b = 0 ∧ f = img.nr
      · rw [if_pos hend]
        rw [hend.1, hend.2, fwdCands_self, bwdCands_zero]
        have hnil : interleaveL [] ([] : List Nat) = [] := by simp [interleaveL]
        rw [hnil, ite_self]
        rfl
      · rw [if_neg hend]
        by_cases hodd : i % 2 = 1
        · rw [if_pos hodd]
          have hieven : ¬ i % 2 = 0 := by omega
          rw [if_neg hieven]
          by_cases hb : b = 0
          · rw [if_pos hb]
            have hfn : f ≠ img.nr := fun hc => hend ⟨hb, hc⟩
            have hflt : f < img.nr := lt_of_le_of_ne hf hfn
            rw [← sumLensTake_succ]
            rw [ih b (f + 1) (f + 1) (i + 2) (by omega) (by omega)]
            rw [if_neg (by omega : ¬ (i + 2) % 2 = 0)]
            rw [hb, bwdCands_zero, fwdCands_eq_cons hflt]
            rfl
          · rw [if_neg hb]
            have hoff : sumLensTake img b - lenAt img (b - 1) = sumLensTake img (b - 1) := by
              have h1 := sumLensTake_succ img (b - 1)
              have hb1 : b - 1 + 1 = b := by omega
              rw [hb1] at h1
              omega
            rw [hoff]
            rw [ih (b - 1) f (b - 1) (i + 1) hf (by omega)]
            rw [if_pos (by omega : (i + 1) % 2 = 0)]
            rw [bwdCands_eq_cons hb, interleaveL_cons]
        · have hieven : i % 2 = 0 := by omega
          rw [if_neg hodd, if_pos hieven]
          by_cases hfn : f = img.nr
          · rw [if_pos hfn]
            have hb : b ≠ 0 := fun hc => hend ⟨hc, hfn⟩
            have hoff : sumLensTake img b - lenAt img (b - 1) = sumLensTake img (b - 1) := by
              have h1 := sumLensTake_succ img (b - 1)
              have hb1 : b - 1 + 1 = b := by omega
              rw [hb1] at h1
              omega
            rw [hoff]
            rw [ih (b - 1) f (b - 1) (i + 2) hf (by omega)]
            rw [if_pos (by omega : (i + 2) % 2 = 0)]
            rw [hfn, fwdCands_self, bwdCands_eq_cons hb]
            rfl
          · rw [if_neg hfn]
            have hflt : f < img.nr := lt_of_le_of_ne hf hfn
            rw [← sumLensTake_succ]
            rw [ih b (f + 1) (f + 1) (i + 1) (by omega) (by omega)]
            rw [if_neg (by omega : ¬ (i + 1) % 2 = 0)]
            rw [fwdCands_eq_cons hflt, interleaveL_cons]

theorem clampHelper (la : Int) (nr : Nat) :
    (if la < 0 ∨ (nr : Int) < la then nr else la.toNat) ≤ nr := by
  split
  · exact Nat.le_refl _
  · rename_i h
    push_neg at h
    omega

theorem clampStart_le (img pre : Image) (line : Int) (mb me : Bool) :
    clampStart img pre line mb me ≤ img.nr := by
  unfold clampStart
  exact clampHelper _ _

/-- C4 counterexample: image lines `a`, `b`, `a`; preimage the single line
`a`; anchor line 1.  The anchor fails (`b`), the code then tries anchor+1
first and returns position 2, while the claimed order (anchor-1 first)
would return position 0 — both positions match. -/
theorem c4_counterexample :
    claimFindPos id false (prepareImage [97, 10, 98, 10, 97, 10] true)
        (imgOfTagged [([97, 10], 1)]) (imgOfTagged [([97, 10], 1)]) 1 false false =
      some (0, imgOfTagged [([97, 10], 1)], imgOfTagged [([97, 10], 1)]) ∧
    findPos id false (prepareImage [97, 10, 98, 10, 97, 10] true)
        (imgOfTagged [([97, 10], 1)]) (imgOfTagged [([97, 10], 1)]) 1 false false =
      some (2, imgOfTagged [([97, 10], 1)], imgOfTagged [([97, 10], 1)]) ∧
    (0 : Nat) ≠ 2 := by
  refine ⟨by decide, by decide, by decide⟩

/-- C4 amended: `find_pos` tries candidate positions in the order anchor,
anchor+1, anchor-1, anchor+2, anchor-2, … (forward first), skipping an
exhausted direction, returns the first position where `match_fragment`
succeeds, and fails exactly when no candidate matches. -/
theorem c4_scan_order (fix : List Nat → List Nat) (fuzz : Bool)
    (img pre post : Image) (line : Int) (mb me : Bool) :
    findPos fix fuzz img pre post line mb me =
      if pre.nr > img.nr then none
      else
        firstSomeMap (matchAtLine fix fuzz img pre post mb me)
          (codeCands (clampStart img pre line mb me) img.nr) := by
  unfold findPos
  by_cases h : pre.nr > img.nr
  · rw [if_pos h, if_pos h]
  · rw [if_neg h, if_neg h]
    simp only
    have hle := clampStart_le img pre line mb me
    have H := fpGo_eq_firstSome fix fuzz img pre post mb me (img.nr + 1)
      (clampStart img pre line mb me) (clampStart img pre line mb me)
      (clampStart img pre line mb me) 0 hle (by omega)
    rw [H]
    rfl

theorem length_sliceAt : ∀ (lens buf : List Nat), (sliceAt buf lens).length = lens.length
  | [], _ => rfl
  | _ :: rest, buf => by simp [sliceAt, length_sliceAt rest]

theorem imgRep_imgOfTagged (ts : List (List Nat × Nat)) :
    ImgRep (imgOfTagged ts) (ts.map (·.1)) := by
  refine ⟨rfl, ?_, ?_⟩ <;> simp [imgOfTagged]

theorem imageWF_prepare (buf : List Nat) : imageWF (prepareImage buf true) := by
  have hrep : ImgRep (prepareImage buf true) (splitLinesB buf) := by
    refine ⟨(splitLinesB_flatten buf).symm, ?_, ?_⟩ <;> simp [prepareImage]
  exact imgRep_imageWF hrep

theorem imgRep_removeFirst {img : Image} {c : List Nat} {LL : List (List Nat)}
    (h : ImgRep img (c :: LL)) : ImgRep (removeFirstLine img) LL := by
  obtain ⟨hbuf, hlen, hhash⟩ := h
  cases hl : img.lines with
  | nil => rw [hl] at hlen; simp at hlen
  | cons r rest =>
    rw [hl] at hlen hhash
    simp only [List.map_cons] at hlen hhash
    injection hlen with hlen1 hlen2
    injection hhash with hhash1 hhash2
    refine ⟨?_, ?_, ?_⟩
    · show img.buf.drop ((img.lines.head?.map (·.len)).getD 0) = LL.flatten
      rw [hl]
      simp only [List.head?_cons, Option.map_some', Option.getD_some]
      rw [hbuf, hlen1, List.flatten_cons, List.drop_left]
    · show (img.lines.drop 1).map (·.len) = LL.map List.length
      rw [hl, List.drop_one, List.tail_cons, hlen2]
    · show (img.lines.drop 1).map (·.hash) = LL.map hashLine
      rw [hl, List.drop_one, List.tail_cons, hhash2]

theorem dropLast_map_comm {α β : Type} (f : α → β) :
    ∀ l : List α, l.dropLast.map f = (l.map f).dropLast
  | [] => rfl
  | [_] => rfl
  | a :: b :: rest => by
    rw [List.dropLast_cons₂, List.map_cons, List.map_cons, List.map_cons,
      List.dropLast_cons₂, ← List.map_cons f b rest, dropLast_map_comm f (b :: rest)]

theorem imgRep_removeLast {img : Image} {LL : List (List Nat)}
    (h : ImgRep img LL) (hne : LL ≠ []) :
    ImgRep (removeLastLine img) LL.dropLast := by
  obtain ⟨hbuf, hlen, hhash⟩ := h
  have hdec : LL.dropLast ++ [LL.getLast hne] = LL := List.dropLast_append_getLast hne
  have hlast : (img.lines.getLast?.map (·.len)).getD 0 = (LL.getLast hne).length := by
    have h1 : (img.lines.map (·.len)).getLast? = img.lines.getLast?.map (·.len) :=
      List.getLast?_map _ _
    rw [hlen] at h1
    have h2 : (LL.map List.length).getLast? = some (LL.getLast hne).length := by
      rw [List.getLast?_map]
      rw [List.getLast?_eq_getLast _ hne]
      rfl
    rw [h2] at h1
    rw [← h1]
    rfl
  have hbufsplit : img.buf = LL.dropLast.flatten ++ LL.getLast hne := by
    conv_lhs => rw [hbuf, ← hdec]
    rw [List.flatten_append]
    simp
  refine ⟨?_, ?_, ?_⟩
  · show img.buf.take (img.buf.length - (img.lines.getLast?.map (·.len)).getD 0) =
      LL.dropLast.flatten
    rw [hlast, hbufsplit]
    have : (LL.dropLast.flatten ++ LL.getLast hne).length - (LL.getLast hne).length =
        LL.dropLast.flatten.length := by
      simp
    rw [this, List.take_left]
  · show img.lines.dropLast.map (·.len) = LL.dropLast.map List.length
    rw [dropLast_map_comm, dropLast_map_comm, hlen]
  · show img.lines.dropLast.map (·.hash) = LL.dropLast.map hashLine
    rw [dropLast_map_comm, dropLast_map_comm, hhash]

theorem imageWF_removeFirstLine {img : Image} (h : imageWF img) :
    imageWF (removeFirstLine img) := by
  have hrep := imageWF_imgRep h
  cases hLL : sliceAt img.buf (img.lines.map (·.len)) with
  | nil =>
    rw [hLL] at hrep
    obtain ⟨hbuf, hlen, -⟩ := hrep
    have hnil : img.lines = [] := by
      cases himg : img.lines with
      | nil => rfl
      | cons r rest => rw [himg] at hlen; simp at hlen
    constructor
    · simp [removeFirstLine, hnil, hbuf]
    · simp [removeFirstLine, hnil, sliceAt]
  | cons c LL =>
    rw [hLL] at hrep
    exact imgRep_imageWF (imgRep_removeFirst hrep)

theorem imageWF_removeLastLine {img : Image} (h : imageWF img) :
    imageWF (removeLastLine img) := by
  have hrep := imageWF_imgRep h
  by_cases hLL : sliceAt img.buf (img.lines.map (·.len)) = []
  · rw [hLL] at hrep
    obtain ⟨hbuf, hlen, -⟩ := hrep
    have hnil : img.lines = [] := by
      cases himg : img.lines with
      | nil => rfl
      | cons r rest => rw [himg] at hlen; simp at hlen
    constructor
    · simp [removeLastLine, hnil, hbuf]
    · simp [removeLastLine, hnil, sliceAt]
  · exact imgRep_imageWF (imgRep_removeLast hrep hLL)

/-- `update_image` splices at the line level: replacing the represented
middle segment `LP` with the postimage's lines `LQ`. -/
theorem imgRep_update {img pre post : Image} {LA LP LB LQ : List (List Nat)}
    (himg : ImgRep img (LA ++ LP ++ LB)) (hpost : ImgRep post LQ)
    (hpre : pre.nr = LP.length) :
    ImgRep (update_image img LA.length pre post) (LA ++ LQ ++ LB) := by
  obtain ⟨hbuf, hlen, hhash⟩ := himg
  obtain ⟨qbuf, qlen, qhash⟩ := hpost
  have split3 : ∀ (f : LineRec → Nat) (g : List Nat → Nat),
      img.lines.map f = (LA ++ LP ++ LB).map g →
      (img.lines.take LA.length).map f = LA.map g ∧
      ((img.lines.drop LA.length).take pre.nr).map f = LP.map g ∧
      (img.lines.drop (LA.length + pre.nr)).map f = LB.map g := by
    intro f g hfg
    refine ⟨?_, ?_, ?_⟩
    · rw [List.map_take, hfg, List.map_append, List.map_append, List.append_assoc,
        List.take_left' (by simp)]
    · rw [List.map_take, List.map_drop, hfg, List.map_append, List.map_append,
        List.append_assoc, List.drop_left' (by simp), hpre,
        List.take_left' (by simp)]
    · rw [List.map_drop, hfg, List.map_append, List.map_append,
        List.drop_left' (by simp [hpre])]
  obtain ⟨hA, hP, hB⟩ := split3 (·.len) List.length hlen
  obtain ⟨cA, cP, cB⟩ := split3 (·.hash) hashLine hhash
  have happlied : ((img.lines.take LA.length).map (·.len)).sum = LA.flatten.length := by
    rw [hA, List.length_flatten]
  have hremove : (((img.lines.drop LA.length).take pre.nr).map (·.len)).sum =
      LP.flatten.length := by
    rw [hP, List.length_flatten]
  have hbufsplit : img.buf = LA.flatten ++ LP.flatten ++ LB.flatten := by
    rw [hbuf, List.append_assoc, List.flatten_append, List.flatten_append,
      ← List.append_assoc]
  refine ⟨?_, ?_, ?_⟩
  · show img.buf.take _ ++ post.buf ++ img.buf.drop _ = (LA ++ LQ ++ LB).flatten
    rw [happlied, hremove, hbufsplit, qbuf]
    have h1 : (LA.flatten ++ LP.flatten ++ LB.flatten).take LA.flatten.length =
        LA.flatten := by
      rw [List.append_assoc]
      exact List.take_left' rfl
    have h2 : (LA.flatten ++ LP.flatten ++ LB.flatten).drop
        (LA.flatten.length + LP.flatten.length) = LB.flatten :=
      List.drop_left' (by simp)
    have h3 : (LA ++ LQ ++ LB).flatten = LA.flatten ++ LQ.flatten ++ LB.flatten := by
      rw [List.flatten_append, List.flatten_append]
    rw [h1, h2, h3]
  · show (img.lines.take _ ++ post.lines ++ img.lines.drop _).map (·.len) =
      (LA ++ LQ ++ LB).map List.length
    rw [List.map_append, List.map_append, hA, qlen, hB,
      List.map_append, List.map_append]
  · show (img.lines.take _ ++ post.lines ++ img.lines.drop _).map (·.hash) =
      (LA ++ LQ ++ LB).map hashLine
    rw [List.map_append, List.map_append, cA, qhash, cB,
      List.map_append, List.map_append]

/-- `update_image` preserves the Line-Image invariant when the applied
position is in range and the postimage is well-formed. -/
theorem update_image_WF {img pre post : Image} {pos : Nat}
    (himg : imageWF img) (hpost : imageWF post) (hb : pos + pre.nr ≤ img.nr) :
    imageWF (update_image img pos pre post) := by
  have hrep := imageWF_imgRep himg
  set LL := sliceAt img.buf (img.lines.map (·.len)) with hLLdef
  have hlenLL : LL.length = img.nr := by
    rw [hLLdef, length_sliceAt, List.length_map]; rfl
  have hLAlen : (LL.take pos).length = pos := by
    rw [List.length_take]
    have : pos ≤ LL.length := by rw [hlenLL]; omega
    omega
  have hsplit : LL = LL.take pos ++ ((LL.drop pos).take pre.nr ++ (LL.drop pos).drop pre.nr) := by
    rw [List.take_append_drop, List.take_append_drop]
  have hLP : pre.nr = ((LL.drop pos).take pre.nr).length := by
    rw [List.length_take, List.length_drop, hlenLL]
    omega
  have hrep2 : ImgRep img (LL.take pos ++ (LL.drop pos).take pre.nr ++ (LL.drop pos).drop pre.nr) := by
    rw [← List.append_assoc] at hsplit
    rw [← hsplit]
    exact hrep
  have := @imgRep_update img pre post (LL.take pos) ((LL.drop pos).take pre.nr)
    ((LL.drop pos).drop pre.nr) _ hrep2 (imageWF_imgRep hpost) hLP
  rw [hLAlen] at this
  exact imgRep_imageWF this

theorem matchFragment_no_fuzz {fix : List Nat → List Nat} {img pre post : Image}
    {tOff tL : Nat} {mb me : Bool} {pr po : Image}
    (h : matchFragment fix false img pre post tOff tL mb me = some (pr, po)) :
    pr = pre ∧ po = post ∧ tL + pre.nr ≤ img.nr := by
  unfold matchFragment at h
  by_cases h1 : pre.nr + tL > img.nr
  · rw [if_pos h1] at h
    exact absurd h (by simp)
  · rw [if_neg h1] at h
    by_cases h2 : mb ∧ tL ≠ 0
    · rw [if_pos h2] at h
      exact absurd h (by simp)
    · rw [if_neg h2] at h
      by_cases h3 : me ∧ pre.nr + tL ≠ img.nr
      · rw [if_pos h3] at h
        exact absurd h (by simp)
      · rw [if_neg h3] at h
        by_cases h4 : pre.lines.map (·.hash) ≠
            ((img.lines.drop tL).take pre.nr).map (·.hash)
        · rw [if_pos h4] at h
          exact absurd h (by simp)
        · rw [if_neg h4] at h
          by_cases h5 : (if me then tOff + pre.len = img.len
              else tOff + pre.len ≤ img.len) ∧
              (img.buf.drop tOff).take pre.len = pre.buf
          · rw [if_pos h5] at h
            injection h with h6
            injection h6 with h7 h8
            exact ⟨h7.symm, h8.symm, by omega⟩
          · rw [if_neg h5, if_pos rfl] at h
            exact absurd h (by simp)

theorem fpGo_no_fuzz (fix : List Nat → List Nat) (img pre post : Image) (mb me : Bool) :
    ∀ (fuel b bo f fo t tOf i p : Nat) (pr po : Image),
    fpGo fix false img pre post mb me fuel b bo f fo t tOf i = some (p, pr, po) →
    pr = pre ∧ po = post ∧ p + pre.nr ≤ img.nr := by
  intro fuel
  induction fuel with
  | zero => intro b bo f fo t tOf i p pr po h; exact absurd h (by simp [fpGo])
  | succ fuel ih =>
    intro b bo f fo t tOf i p pr po h
    rw [fpGo] at h
    cases hm : matchFragment fix false img pre post tOf t mb me with
    | some r =>
      simp only [hm] at h
      obtain ⟨e1, e2, e3⟩ := matchFragment_no_fuzz hm
      injection h with h2
      injection h2 with hp hrest
      injection hrest with hpr hpo
      subst hp
      exact ⟨hpr.symm.trans e1, hpo.symm.trans e2, e3⟩
    | none =>
      simp only [hm] at h
      split_ifs at h
      all_goals first
        | exact absurd h (by simp)
        | exact h.elim
        | exact ih _ _ _ _ _ _ _ _ _ _ h

theorem findPos_no_fuzz {fix : List Nat → List Nat} {img pre post : Image}
    {line : Int} {mb me : Bool} {p : Nat} {pr po : Image}
    (h : findPos fix false img pre post line mb me = some (p, pr, po)) :
    pr = pre ∧ po = post ∧ p + pre.nr ≤ img.nr := by
  unfold findPos at h
  by_cases h1 : pre.nr > img.nr
  · rw [if_pos h1] at h; exact absurd h (by simp)
  · rw [if_neg h1] at h
    exact fpGo_no_fuzz fix img pre post mb me _ _ _ _ _ _ _ _ _ _ _ h

theorem reduceStep_post_WF {pre post : Image} {pos : Int} {l t : Nat}
    (h : imageWF post) : imageWF (reduceStep pre post pos l t).2.1 := by
  unfold reduceStep
  by_cases h1 : l ≥ t
  · rw [if_pos h1]
    by_cases h2 : t > l - 1
    · rw [if_pos h2]
      exact imageWF_removeLastLine (imageWF_removeFirstLine h)
    · rw [if_neg h2]
      exact imageWF_removeFirstLine h
  · rw [if_neg h1]
    by_cases h2 : t > l
    · rw [if_pos h2]
      exact imageWF_removeLastLine h
    · rw [if_neg h2]
      exact h

/-- Without whitespace fuzz, the search loop returns a position in range
for its (possibly context-reduced) preimage, and a well-formed postimage
whenever the one it starts from is well-formed. -/
theorem searchLoop_no_fuzz (fix : List Nat → List Nat) (img : Image) (pc : Nat) :
    ∀ (fuel : Nat) (pre post : Image) (pos : Int) (l t : Nat) (mb me : Bool)
      (p : Nat) (pr po : Image) (l' t' : Nat),
    imageWF post →
    searchLoop fix false img pc fuel pre post pos l t mb me =
      some (p, pr, po, l', t') →
    imageWF po ∧ p + pr.nr ≤ img.nr := by
  intro fuel
  induction fuel with
  | zero =>
    intro pre post pos l t mb me p pr po l' t' hwf h
    exact absurd h (by simp [searchLoop])
  | succ fuel ih =>
    intro pre post pos l t mb me p pr po l' t' hwf h
    rw [searchLoop] at h
    cases hfp : findPos fix false img pre post pos mb me with
    | some r =>
      simp only [hfp] at h
      obtain ⟨e1, e2, e3⟩ := @findPos_no_fuzz fix img pre post pos mb me
        r.1 r.2.1 r.2.2 (by rw [hfp])
      injection h with h2
      injection h2 with hp hrest
      injection hrest with hpr hrest2
      injection hrest2 with hpo hrest3
      subst hp
      refine ⟨(hpo.symm.trans e2) ▸ hwf, ?_⟩
      rw [hpr.symm.trans e1]
      exact e3
    | none =>
      simp only [hfp] at h
      split_ifs at h
      all_goals first
        | exact absurd h (by simp)
        | exact h.elim
        | exact ih _ _ _ _ _ _ _ _ _ _ _ _ hwf h
        | exact ih _ _ _ _ _ _ _ _ _ _ _ _ (reduceStep_post_WF hwf) h

theorem filter_eq_dropWhile_cons {α : Type} (p : α → Bool) :
    ∀ l : List α, l.filter p =
      (match l.dropWhile (fun a => !p a) with
       | [] => []
       | x :: xs => x :: xs.filter p) := by
  intro l
  induction l with
  | nil => rfl
  | cons a l ih =>
    by_cases hp : p a
    · simp [List.filter_cons, List.dropWhile_cons, hp]
    · rw [List.filter_cons, if_neg (by simp [hp]), List.dropWhile_cons,
        if_pos (by simp [hp])]
      exact ih

/-- The common-context walk keeps the per-pair invariant: each output
record's `len` is its content's length and its `hash` the content's hash,
given the input pairs satisfy it and the common-line hashes of the fixed
preimage align with the stored common hashes of the postimage. -/
theorem adjustPost_pairs :
    ∀ (pairs : List (LineRec × List Nat)) (preT : List (List Nat × Nat))
      (out : List (LineRec × List Nat)),
    adjustPost preT pairs = some out →
    (∀ q ∈ pairs, q.1.len = q.2.length ∧ q.1.hash = hashLine q.2) →
    ((preT.filter (fun p => isCommonFlag p.2)).map (fun p => hashLine p.1)) =
      ((pairs.filter (fun q => isCommonFlag q.1.flag)).map (fun q => q.1.hash)) →
    ∀ q ∈ out, q.1.len = q.2.length ∧ q.1.hash = hashLine q.2 := by
  intro pairs
  induction pairs with
  | nil =>
    intro preT out h _ _ q hq
    rw [adjustPost] at h
    injection h with h2
    rw [← h2] at hq
    simp at hq
  | cons rc rest ih =>
    intro preT out h hpairs halign q hq
    obtain ⟨r, c⟩ := rc
    rw [adjustPost] at h
    by_cases hc : isCommonFlag r.flag = false
    · rw [if_pos hc] at h
      cases hadj : adjustPost preT rest with
      | none => rw [hadj] at h; exact absurd h (by simp)
      | some out' =>
        rw [hadj] at h
        simp only [Option.map_some'] at h
        injection h with h2
        rw [← h2, List.mem_cons] at hq
        rcases hq with hq | hq
        · subst hq
          exact hpairs (r, c) (by simp)
        · refine ih preT out' hadj (fun x hx => hpairs x (by simp [hx])) ?_ q hq
          rw [halign, List.filter_cons, if_neg (by simp [hc])]
    · rw [if_neg hc] at h
      have hcc : isCommonFlag r.flag = true := by
        cases hcv : isCommonFlag r.flag
        · exact absurd hcv hc
        · rfl
      cases hdw : preT.dropWhile (fun p => !isCommonFlag p.2) with
      | nil => simp only [hdw] at h; exact absurd h (by simp)
      | cons pcf preRest =>
        obtain ⟨pc, fl⟩ := pcf
        simp only [hdw] at h
        cases hadj : adjustPost preRest rest with
        | none => rw [hadj] at h; exact absurd h (by simp)
        | some out' =>
          rw [hadj] at h
          simp only [Option.map_some'] at h
          injection h with h2
          have hfsplit := filter_eq_dropWhile_cons (fun p => isCommonFlag p.2) preT
          rw [hdw] at hfsplit
          rw [hfsplit] at halign
          rw [List.filter_cons, if_pos (by simp [hcc])] at halign
          simp only [List.map_cons] at halign
          injection halign with hhead htail
          rw [← h2, List.mem_cons] at hq
          rcases hq with hq | hq
          · subst hq
            exact ⟨rfl, hhead.symm⟩
          · exact ih preRest out' hadj (fun x hx => hpairs x (by simp [hx])) htail q hq

theorem zipWith_flag_maps (l1 l2 : List LineRec) (h : l1.length = l2.length) :
    ((List.zipWith (fun (nR oR : LineRec) => (⟨nR.len, nR.hash, oR.flag⟩ : LineRec))
        l1 l2).map (·.len) = l1.map (·.len)) ∧
    ((List.zipWith (fun (nR oR : LineRec) => (⟨nR.len, nR.hash, oR.flag⟩ : LineRec))
        l1 l2).map (·.hash) = l1.map (·.hash)) := by
  induction l1 generalizing l2 with
  | nil =>
    cases l2 with
    | nil => exact ⟨rfl, rfl⟩
    | cons b l2 => simp at h
  | cons a l1 ih =>
    cases l2 with
    | nil => simp at h
    | cons b l2 =>
      have hih := ih l2 (by simpa using h)
      refine ⟨?_, ?_⟩ <;>
        simp [List.zipWith_cons_cons, List.map_cons, hih.1, hih.2]

theorem map_eq_zip_pointwise {α β : Type} (f : α → Nat) (g : β → Nat) :
    ∀ (l1 : List α) (l2 : List β), l1.map f = l2.map g →
    ∀ p ∈ l1.zip l2, f p.1 = g p.2
  | [], _, _, p, hp => by simp at hp
  | _ :: _, [], _, p, hp => by simp at hp
  | a :: l1, b :: l2, h, p, hp => by
    simp only [List.map_cons] at h
    injection h with h1 h2
    simp only [List.zip_cons_cons, List.mem_cons] at hp
    rcases hp with hp | hp
    · subst hp; exact h1
    · exact map_eq_zip_pointwise f g l1 l2 h2 p hp

/-- The whitespace-fuzz adjustment produces well-formed images: the rebuilt
preimage unconditionally, and the adjusted postimage whenever the input
postimage is well-formed and the common-line hashes align. -/
theorem updatePrePost_WF {pre post : Image} {fixedBuf : List Nat} {pre' post' : Image}
    (h : updatePrePostImages pre post fixedBuf = some (pre', post'))
    (hpost : imageWF post)
    (halign : ((fixedPreTagged pre fixedBuf).filter (fun p => isCommonFlag p.2)).map
        (fun p => hashLine p.1) =
      ((post.lines.zip (sliceAt post.buf (post.lines.map (·.len)))).filter
        (fun q => isCommonFlag q.1.flag)).map (fun q => q.1.hash)) :
    imageWF pre' ∧ imageWF post' := by
  simp only [updatePrePostImages] at h
  by_cases hnr : (prepareImage fixedBuf true).lines.length ≠ pre.lines.length
  · rw [if_pos hnr] at h
    exact absurd h (by simp)
  · rw [if_neg hnr] at h
    push_neg at hnr
    cases hadj : adjustPost (fixedPreTagged pre fixedBuf)
        (List.zip post.lines (sliceAt post.buf (post.lines.map (·.len)))) with
    | none => simp only [hadj] at h; exact absurd h (by simp)
    | some pairs =>
      simp only [hadj] at h
      injection h with h2
      injection h2 with hpre' hpost'
      have hzw := zipWith_flag_maps (prepareImage fixedBuf true).lines pre.lines hnr
      have hfp := imageWF_prepare fixedBuf
      constructor
      · rw [← hpre']
        refine ⟨?_, ?_⟩
        · rw [show (Image.lines ⟨fixedBuf, List.zipWith
              (fun nR oR => (⟨nR.len, nR.hash, oR.flag⟩ : LineRec))
              (prepareImage fixedBuf true).lines pre.lines⟩) = List.zipWith
              (fun nR oR => (⟨nR.len, nR.hash, oR.flag⟩ : LineRec))
              (prepareImage fixedBuf true).lines pre.lines from rfl, hzw.1]
          exact hfp.1
        · rw [show (Image.lines ⟨fixedBuf, List.zipWith
              (fun nR oR => (⟨nR.len, nR.hash, oR.flag⟩ : LineRec))
              (prepareImage fixedBuf true).lines pre.lines⟩) = List.zipWith
              (fun nR oR => (⟨nR.len, nR.hash, oR.flag⟩ : LineRec))
              (prepareImage fixedBuf true).lines pre.lines from rfl, hzw.2, hzw.1]
          exact hfp.2
      · rw [← hpost']
        have hq : ∀ q ∈ pairs, q.1.len = q.2.length ∧ q.1.hash = hashLine q.2 := by
          refine adjustPost_pairs _ _ _ hadj ?_ halign
          intro q hq
          constructor
          · refine map_eq_zip_pointwise (·.len) List.length post.lines
              (sliceAt post.buf (post.lines.map (·.len))) ?_ q hq
            rw [map_length_sliceAt _ _ (le_of_eq hpost.1)]
          · exact map_eq_zip_pointwise (·.hash) hashLine post.lines
              (sliceAt post.buf (post.lines.map (·.len))) hpost.2 q hq
        have hrep : ImgRep (⟨(pairs.map (·.2)).flatten, pairs.map (·.1)⟩ : Image)
            (pairs.map (·.2)) := by
          refine ⟨rfl, ?_, ?_⟩
          · show (pairs.map (·.1)).map (·.len) = (pairs.map (·.2)).map List.length
            rw [List.map_map, List.map_map]
            exact List.map_congr_left fun q hq2 => (hq q hq2).1
          · show (pairs.map (·.1)).map (·.hash) = (pairs.map (·.2)).map hashLine
            rw [List.map_map, List.map_map]
            exact List.map_congr_left fun q hq2 => (hq q hq2).2
        exact imgRep_imageWF hrep

/-- Without `--inaccurate-eof` and outside the `fix` whitespace mode, one
fragment application preserves the Line-Image invariant. -/
theorem applyOneFragment_WF {fix : List Nat → List Nat} {fl : Flags} {img : Image}
    {f : Frag} {img' : Image}
    (hie : fl.inaccurateEof = false) (hws : fl.wsActionFix = false)
    (himg : imageWF img) (happ : applyOneFragment fix fl img f = some img') :
    imageWF img' := by
  unfold applyOneFragment at happ
  cases hbi : buildImages fl fix f.body with
  | none => rw [hbi] at happ; exact absurd happ (by simp)
  | some triple =>
    obtain ⟨pre0, post0, nbl⟩ := triple
    rw [hbi] at happ
    simp only [hie, hws, decide_eq_true_eq, Bool.false_eq_true, false_and,
      if_false] at happ
    have hpost0 : imageWF post0 := by
      unfold buildImages at hbi
      cases hbl : buildLoop fl fix f.body [] [] 0 with
      | none => rw [hbl] at hbi; exact absurd hbi (by simp)
      | some r =>
        rw [hbl] at hbi
        simp only [Option.map_some'] at hbi
        injection hbi with h2
        injection h2 with hp hrest
        injection hrest with hq hn
        rw [← hq]
        exact imgRep_imageWF (imgRep_imgOfTagged r.2.1)
    cases hsl : searchLoop fix false img fl.pContext (f.leading + f.trailing + 2)
        pre0 post0 (if f.newpos = 0 then 0 else (f.newpos : Int) - 1) f.leading
        f.trailing (matchBeginningFlag fl f) (matchEndFlag fl f) with
    | none => rw [hsl] at happ; exact absurd happ (by simp)
    | some res =>
      obtain ⟨p, pr, po, l', t'⟩ := res
      rw [hsl] at happ
      simp only [Bool.false_eq_true, false_and, if_false] at happ
      injection happ with h2
      obtain ⟨hwfpo, hbound⟩ := searchLoop_no_fuzz fix img fl.pContext _ _ _ _ _ _
        _ _ _ _ _ _ _ hpost0 hsl
      rw [← h2]
      exact update_image_WF himg hwfpo hbound

theorem decUL_eq_of_ne {c : Nat} (h : c ≠ 0) : decUL c = (c - 1, false) := by
  simp [decUL, h]

/-- Once the countdown has wrapped, the wrap flag stays set in the result. -/
theorem parseFragLoop_wrap_mono :
    ∀ (lines : List (List Nat)) (isRev nw : Bool) (wc : List Nat → Bool)
      (o n l t a d ws : Nat) (r : Nat × Nat × Nat × Nat × Nat × Bool),
    parseFragLoop isRev nw wc lines o n l t a d ws true = some r →
    r.2.2.2.2.2 = true := by
  intro lines
  induction lines with
  | nil =>
    intro isRev nw wc o n l t a d ws r hp
    simp only [parseFragLoop] at hp
    split at hp
    · cases hp; rfl
    · exact absurd hp (by simp)
  | cons lhd rest ih =>
    intro isRev nw wc o n l t a d ws r hp
    simp only [parseFragLoop, Bool.true_or] at hp
    split at hp
    · cases hp; rfl
    · split at hp
      · exact absurd hp (by simp)
      · split at hp
        · exact ih _ _ _ _ _ _ _ _ _ _ _ hp
        · split at hp
          · exact ih _ _ _ _ _ _ _ _ _ _ _ hp
          · split at hp
            · exact ih _ _ _ _ _ _ _ _ _ _ _ hp
            · split at hp
              · split at hp
                · exact absurd hp (by simp)
                · exact ih _ _ _ _ _ _ _ _ _ _ _ hp
              · exact absurd hp (by simp)

/-- Counter bookkeeping of the hunk-body loop, for a run that succeeds
without any `unsigned long` wrap: `added`/`deleted` only grow; a run that
sees no `+`/`-` line consumes equal counts and adds them to both context
counters; once a `+`/`-` line is seen, `leading` is frozen, and after the
last one `trailing` is bounded by the lines consumed on each side. -/
theorem parseFragLoop_inv :
    ∀ (lines : List (List Nat)) (isRev nw : Bool) (wc : List Nat → Bool)
      (oldl newl leading trailing added deleted ws : Nat)
      (l' t' a' d' ws' : Nat),
    parseFragLoop isRev nw wc lines oldl newl leading trailing added deleted ws false =
      some (l', t', a', d', ws', false) →
    added ≤ a' ∧ deleted ≤ d' ∧
    (a' + d' = added + deleted →
      (added + deleted = 0 → l' = leading + oldl ∧ t' = trailing + oldl ∧ oldl = newl) ∧
      (0 < added + deleted → l' = leading ∧ t' = trailing + oldl ∧ oldl = newl)) ∧
    (added + deleted < a' + d' →
      (0 < added + deleted → l' = leading ∧ t' ≤ min oldl newl) ∧
      (added + deleted = 0 → leading ≤ l' ∧ (l' - leading) + t' ≤ min oldl newl)) := by
  intro lines
  induction lines with
  | nil =>
    intro isRev nw wc oldl newl leading trailing added deleted ws l' t' a' d' ws' hp
    simp only [parseFragLoop] at hp
    split at hp
    · rename_i hz
      cases hp
      refine ⟨le_refl _, le_refl _, fun _ => ⟨fun _ => by omega, fun _ => by omega⟩,
        fun hlt => absurd hlt (by omega)⟩
    · exact absurd hp (by simp)
  | cons lhd rest ih =>
    intro isRev nw wc oldl newl leading trailing added deleted ws l' t' a' d' ws' hp
    rw [parseFragLoop] at hp
    by_cases hz : oldl = 0 ∧ newl = 0
    · rw [if_pos hz] at hp
      cases hp
      refine ⟨le_refl _, le_refl _, fun _ => ⟨fun _ => by omega, fun _ => by omega⟩,
        fun hlt => absurd hlt (by omega)⟩
    · rw [if_neg hz] at hp
      by_cases hbad : lhd = [] ∨ lhd.getLast? ≠ some 10
      · rw [if_pos hbad] at hp; exact absurd hp (by simp)
      · rw [if_neg hbad] at hp
        simp only at hp
        by_cases h10 : lhd.head?.getD 0 = 10 ∨ lhd.head?.getD 0 = 32
        · rw [if_pos h10] at hp
          -- context line: both counters decrement; no wrap by hypothesis
          have ho2 : (decUL oldl).2 = false ∧ (decUL newl).2 = false := by
            by_contra hcon
            have htrue : (false || (decUL oldl).2 || (decUL newl).2) = true := by
              cases h1 : (decUL oldl).2
              · cases h2 : (decUL newl).2
                · exact absurd ⟨h1, h2⟩ hcon
                · simp [h1, h2]
              · simp [h1]
            rw [htrue] at hp
            have := parseFragLoop_wrap_mono _ _ _ _ _ _ _ _ _ _ _ _ hp
            simp at this
          have hon : oldl ≠ 0 ∧ newl ≠ 0 := by
            constructor
            · intro h; rw [h] at ho2; simp [decUL] at ho2
            · intro h; rw [h] at ho2; simp [decUL] at ho2
          rw [decUL_eq_of_ne hon.1, decUL_eq_of_ne hon.2] at hp
          simp only [Bool.or_false] at hp
          by_cases hclean : deleted = 0 ∧ added = 0
          · rw [if_pos hclean] at hp
            have H := ih _ _ _ _ _ _ _ _ _ _ _ _ _ _ _ hp
            obtain ⟨hma, hmd, heq, hlt⟩ := H
            refine ⟨hma, hmd, fun he => ⟨fun h0 => ?_, fun h0 => ?_⟩,
              fun hl => ⟨fun h0 => ?_, fun h0 => ?_⟩⟩
            · obtain ⟨h1, h2, h3⟩ := (heq he).1 (by omega)
              omega
            · omega
            · omega
            · obtain ⟨h1, h2⟩ := (hlt hl).2 (by omega)
              omega
          · rw [if_neg hclean] at hp
            have H := ih _ _ _ _ _ _ _ _ _ _ _ _ _ _ _ hp
            obtain ⟨hma, hmd, heq, hlt⟩ := H
            refine ⟨hma, hmd, fun he => ⟨fun h0 => ?_, fun h0 => ?_⟩,
              fun hl => ⟨fun h0 => ?_, fun h0 => ?_⟩⟩
            · omega
            · obtain ⟨h1, h2, h3⟩ := (heq he).2 (by omega)
              omega
            · obtain ⟨h1, h2⟩ := (hlt hl).1 (by omega)
              omega
            · omega
        · rw [if_neg h10] at hp
          by_cases h45 : lhd.head?.getD 0 = 45
          · rw [if_pos h45] at hp
            have ho2 : (decUL oldl).2 = false := by
              by_contra hcon
              rw [eq_true_of_ne_false hcon] at hp
              simp only [Bool.or_true, Bool.false_or] at hp
              have := parseFragLoop_wrap_mono _ _ _ _ _ _ _ _ _ _ _ _ hp
              simp at this
            have hon : oldl ≠ 0 := by
              intro h; rw [h] at ho2; simp [decUL] at ho2
            rw [decUL_eq_of_ne hon] at hp
            simp only [Bool.or_false, Bool.false_or] at hp
            have H := ih _ _ _ _ _ _ _ _ _ _ _ _ _ _ _ hp
            obtain ⟨hma, hmd, heq, hlt⟩ := H
            refine ⟨by omega, by omega, fun he => ⟨fun h0 => by omega, fun h0 => by omega⟩,
              fun hl => ⟨fun h0 => ?_, fun h0 => ?_⟩⟩
            · rcases Nat.lt_or_ge (added + (deleted + 1)) (a' + d') with hc | hc
              · obtain ⟨h1, h2⟩ := (hlt hc).1 (by omega)
                exact ⟨h1, by omega⟩
              · obtain ⟨h1, h2, h3⟩ := (heq (by omega)).2 (by omega)
                refine ⟨h1, by omega⟩
            · rcases Nat.lt_or_ge (added + (deleted + 1)) (a' + d') with hc | hc
              · obtain ⟨h1, h2⟩ := (hlt hc).1 (by omega)
                refine ⟨by omega, by omega⟩
              · obtain ⟨h1, h2, h3⟩ := (heq (by omega)).2 (by omega)
                refine ⟨by omega, by omega⟩
          · rw [if_neg h45] at hp
            by_cases h43 : lhd.head?.getD 0 = 43
            · rw [if_pos h43] at hp
              have hn2 : (decUL newl).2 = false := by
                by_contra hcon
                rw [eq_true_of_ne_false hcon] at hp
                simp only [Bool.or_true, Bool.false_or] at hp
                have := parseFragLoop_wrap_mono _ _ _ _ _ _ _ _ _ _ _ _ hp
                simp at this
              have hnn : newl ≠ 0 := by
                intro h; rw [h] at hn2; simp [decUL] at hn2
              rw [decUL_eq_of_ne hnn] at hp
              simp only [Bool.or_false, Bool.false_or] at hp
              have H := ih _ _ _ _ _ _ _ _ _ _ _ _ _ _ _ hp
              obtain ⟨hma, hmd, heq, hlt⟩ := H
              refine ⟨by omega, by omega, fun he => ⟨fun h0 => by omega, fun h0 => by omega⟩,
                fun hl => ⟨fun h0 => ?_, fun h0 => ?_⟩⟩
              · rcases Nat.lt_or_ge ((added + 1) + deleted) (a' + d') with hc | hc
                · obtain ⟨h1, h2⟩ := (hlt hc).1 (by omega)
                  exact ⟨h1, by omega⟩
                · obtain ⟨h1, h2, h3⟩ := (heq (by omega)).2 (by omega)
                  exact ⟨h1, by omega⟩
              · rcases Nat.lt_or_ge ((added + 1) + deleted) (a' + d') with hc | hc
                · obtain ⟨h1, h2⟩ := (hlt hc).1 (by omega)
                  exact ⟨by omega, by omega⟩
                · obtain ⟨h1, h2, h3⟩ := (heq (by omega)).2 (by omega)
                  exact ⟨by omega, by omega⟩
            · rw [if_neg h43] at hp
              by_cases h92 : lhd.head?.getD 0 = 92
              · rw [if_pos h92] at hp
                by_cases hbs : lhd.length < 12 ∨ lhd.take 2 ≠ [92, 32]
                · rw [if_pos hbs] at hp; exact absurd hp (by simp)
                · rw [if_neg hbs] at hp
                  exact ih _ _ _ _ _ _ _ _ _ _ _ _ _ _ _ hp
              · rw [if_neg h92] at hp; exact absurd hp (by simp)

/-- C9 counterexample: a hunk whose body is two plain context lines
(` a`, ` b`) with declared counts `-x,2 +y,2` parses successfully with
`leading = trailing = 2`, but `2 + 2 > min 2 2`: both counters count the
same context lines when the hunk has no added or deleted line at all. -/
theorem c9_counterexample :
    parseFragLoop false true (fun _ => false)
      [[32, 97, 10], [32, 98, 10]] 2 2 0 0 0 0 0 false =
      some (2, 2, 0, 0, 0, false) ∧ ¬(2 + 2 ≤ min 2 2) := by
  constructor
  · rfl
  · decide

/-- C9 amended: for every successfully parsed text hunk that contains at
least one added or deleted line (and whose `unsigned long` countdowns never
wrap), `leading + trailing ≤ min(old_lines, new_lines)`.  A hunk made only
of context lines instead gets `leading = trailing = old_lines = new_lines`. -/
theorem c9_context_le_min (isRev nw : Bool) (wc : List Nat → Bool)
    (lines : List (List Nat)) (old0 new0 l' t' a' d' ws' : Nat)
    (hp : parseFragLoop isRev nw wc lines old0 new0 0 0 0 0 0 false =
      some (l', t', a', d', ws', false))
    (hchange : 0 < a' + d') :
    l' + t' ≤ min old0 new0 := by
  have H := parseFragLoop_inv lines isRev nw wc old0 new0 0 0 0 0 0 l' t' a' d' ws' hp
  obtain ⟨-, -, heq, hlt⟩ := H
  rcases Nat.lt_or_ge 0 (a' + d') with h | h
  · have := (hlt (by omega)).2 rfl
    omega
  · omega

/-- Witness for the amended C9: `@@ -2 +1 @@` body ` a` / `-b`. -/
theorem c9_context_le_min_witness :
    parseFragLoop false true (fun _ => false)
      [[32, 97, 10], [45, 98, 10]] 2 1 0 0 0 0 0 false =
      some (1, 0, 0, 1, 0, false) ∧ 1 + 0 ≤ min 2 1 :=
  ⟨rfl, c9_context_le_min false true (fun _ => false)
    [[32, 97, 10], [45, 98, 10]] 2 1 1 0 0 1 0 rfl (by decide)⟩

/-- Witness for C8: the one-line hunk `"A00000\n"` (length byte `A`,
declared count 1, `max_byte_length` 4) is within bounds; and the same
line with length byte `1` (non-alphabetic) corrupts the hunk. -/
theorem c8_b85_declared_length_bounds_witness :
    (∀ l ∈ ([[65, 48, 48, 48, 48, 48, 10], [10]] :
        List (List Nat)).takeWhile (fun x => x.length != 1), goodDataLine l) ∧
    parseB85Loop (fun _ n => some (List.replicate n 0))
      [[49, 48, 48, 48, 48, 48, 10], [10]] [] = none := by
  constructor
  · exact (c8_b85_declared_length_bounds (fun _ n => some (List.replicate n 0))).1
      [[65, 48, 48, 48, 48, 48, 10], [10]] [] [0] (by decide)
  · exact (c8_b85_declared_length_bounds (fun _ n => some (List.replicate n 0))).2
      [] [49, 48, 48, 48, 48, 48, 10] [[10]] []
      (by intro x hx; simp at hx) (by decide) (by decide) (by decide)

/-- C2 counterexample: with `--inaccurate-eof`, `apply_one_fragment` trims the
trailing newline from the pre/post buffers without touching the line tables, so
the image it produces has a line-length sum (2) different from its buffer
length (1), violating the claimed invariant for an image mutated by the
Applier. -/
theorem c2_counterexample :
    applyOneFragment id { defaultFlags with inaccurateEof := true }
        (prepareImage [120, 10] true) ⟨1, 1, 1, 1, 0, 1, [[32, 120, 10]]⟩ =
      some ⟨[120], [⟨2, 120, 1⟩]⟩ ∧
    ¬ imageWF ⟨[120], [⟨2, 120, 1⟩]⟩ := by
  exact ⟨by decide, by decide⟩

/-- C2 (amended): the Line-Image invariant — per-line `len` fields sum to the
buffer length and each stored hash is the 24-bit hash of its slice — holds
after `prepare_image` with a line table, is preserved by each
`apply_one_fragment` (hence each `update_image` it performs) provided
`--inaccurate-eof` is off and the whitespace action is not `fix`, and holds
after the whitespace-fuzz adjustment `update_pre_post_images` for the rebuilt
preimage unconditionally and for the adjusted postimage whenever the input
postimage satisfies the invariant and the common-context hashes align. -/
theorem c2_image_invariants :
    (∀ buf : List Nat, imageWF (prepareImage buf true)) ∧
    (∀ (fix : List Nat → List Nat) (fl : Flags) (img : Image) (f : Frag)
       (img' : Image),
      fl.inaccurateEof = false → fl.wsActionFix = false → imageWF img →
      applyOneFragment fix fl img f = some img' → imageWF img') ∧
    (∀ (pre post : Image) (fixedBuf : List Nat) (pre' post' : Image),
      updatePrePostImages pre post fixedBuf = some (pre', post') →
      imageWF post →
      ((fixedPreTagged pre fixedBuf).filter (fun p => isCommonFlag p.2)).map
          (fun p => hashLine p.1) =
        ((post.lines.zip (sliceAt post.buf (post.lines.map (·.len)))).filter
          (fun q => isCommonFlag q.1.flag)).map (fun q => q.1.hash) →
      imageWF pre' ∧ imageWF post') := by
  refine ⟨imageWF_prepare, ?_, ?_⟩
  · intro fix fl img f img' hie hws himg happ
    exact applyOneFragment_WF hie hws himg happ
  · intro pre post fixedBuf pre' post' h hpost halign
    exact updatePrePost_WF h hpost halign

/-- Concrete instantiation of the three parts of the amended C2 statement. -/
theorem c2_image_invariants_witness :
    imageWF (prepareImage [97, 10, 98, 10] true) ∧
    imageWF (⟨[120, 10], [⟨2, 120, 1⟩]⟩ : Image) ∧
    (imageWF (⟨[120, 10], [⟨2, 120, 0⟩]⟩ : Image) ∧
      imageWF (⟨[120, 10], [⟨2, 120, 0⟩]⟩ : Image)) := by
  refine ⟨c2_image_invariants.1 [97, 10, 98, 10],
    c2_image_invariants.2.1 id defaultFlags (prepareImage [120, 10] true)
      ⟨1, 1, 1, 1, 0, 1, [[32, 120, 10]]⟩ ⟨[120, 10], [⟨2, 120, 1⟩]⟩
      (by decide) (by decide) (by decide) (by decide),
    c2_image_invariants.2.2 (prepareImage [120, 10] true)
      (prepareImage [120, 10] true) [120, 10] ⟨[120, 10], [⟨2, 120, 0⟩]⟩
      ⟨[120, 10], [⟨2, 120, 0⟩]⟩ (by decide) (by decide) (by decide)⟩

theorem hasBS_render (tg : List (Tag × List Nat)) :
    (match Option.map renderLine tg.head? with
      | some nl => nl.head? = some 92
      | none => false) = false := by
  cases tg with
  | nil => rfl
  | cons p r =>
    obtain ⟨t, c⟩ := p
    cases t <;> rfl

/-- On a rendered tagged body, the classification loop of
`apply_one_fragment` appends exactly the old side to the preimage
accumulator and the new side to the postimage accumulator (sides swapped
under `apply_in_reverse`). -/
theorem buildLoop_render (fl : Flags) (fix : List Nat → List Nat)
    (hna : fl.noAdd = false) (hwe : ¬(fl.wsErr = true ∧ fl.wsActionFix = true)) :
    ∀ (tg : List (Tag × List Nat)) (preA postA : List (List Nat × Nat)) (nbl : Nat),
    ∃ nbl', buildLoop fl fix (tg.map renderLine) preA postA nbl =
      some (preA ++ sideTagged fl.reverse tg, postA ++ sideTagged (!fl.reverse) tg, nbl') := by
  intro tg
  induction tg with
  | nil =>
    intro preA postA nbl
    exact ⟨nbl, by simp [buildLoop, sideTagged]⟩
  | cons p tg' ih =>
    intro preA postA nbl
    obtain ⟨t, c⟩ := p
    have hbs := hasBS_render tg'
    cases t with
    | ctx =>
      obtain ⟨nbl', hrec⟩ := ih (preA ++ [(c, 1)]) (postA ++ [(c, 1)]) 0
      refine ⟨nbl', ?_⟩
      rw [List.map_cons, renderLine, buildLoop]
      cases hrv : fl.reverse <;>
        simp [hbs, hrv, hna, hwe, hrec, sideTagged, List.append_assoc]
    | del =>
      cases hrv : fl.reverse with
      | false =>
        obtain ⟨nbl', hrec⟩ := ih (preA ++ [(c, 0)]) postA 0
        refine ⟨nbl', ?_⟩
        rw [List.map_cons, renderLine, buildLoop]
        simp [hbs, hrv, hna, hwe, hrec, sideTagged, List.append_assoc]
      | true =>
        obtain ⟨nbl', hrec⟩ := ih preA (postA ++ [(c, 0)])
          (if c.length = 1 ∧ c.getLast? = some 10 then nbl + 1 else 0)
        refine ⟨nbl', ?_⟩
        rw [List.map_cons, renderLine, buildLoop]
        simp [hbs, hrv, hna, hwe, hrec, sideTagged, List.append_assoc]
    | add =>
      cases hrv : fl.reverse with
      | false =>
        obtain ⟨nbl', hrec⟩ := ih preA (postA ++ [(c, 0)])
          (if c.length = 1 ∧ c.getLast? = some 10 then nbl + 1 else 0)
        refine ⟨nbl', ?_⟩
        rw [List.map_cons, renderLine, buildLoop]
        simp [hbs, hrv, hna, hwe, hrec, sideTagged, List.append_assoc]
      | true =>
        obtain ⟨nbl', hrec⟩ := ih (preA ++ [(c, 0)]) postA 0
        refine ⟨nbl', ?_⟩
        rw [List.map_cons, renderLine, buildLoop]
        simp [hbs, hrv, hna, hwe, hrec, sideTagged, List.append_assoc]

theorem imgRep_counts {img : Image} {LL : List (List Nat)} (h : ImgRep img LL) :
    img.nr = LL.length ∧ img.len = LL.flatten.length := by
  constructor
  · have := congrArg List.length h.2.1
    simpa [Image.nr] using this
  · show img.buf.length = _
    rw [h.1]

theorem imgRep_split {img : Image} {LA LP LB : List (List Nat)}
    (h : ImgRep img (LA ++ LP ++ LB)) :
    sumLensTake img LA.length = LA.flatten.length ∧
    ((img.lines.drop LA.length).take LP.length).map (·.hash) = LP.map hashLine ∧
    (img.buf.drop LA.flatten.length).take LP.flatten.length = LP.flatten := by
  obtain ⟨hbuf, hlen, hhash⟩ := h
  refine ⟨?_, ?_, ?_⟩
  · show ((img.lines.take LA.length).map (·.len)).sum = _
    rw [List.map_take, hlen, List.map_append, List.map_append,
      List.append_assoc, List.take_left' (by simp), List.length_flatten]
  · rw [List.map_take, List.map_drop, hhash, List.map_append, List.map_append,
      List.append_assoc, List.drop_left' (by simp),
      List.take_left' (by simp)]
  · rw [hbuf, List.flatten_append, List.flatten_append, List.append_assoc,
      List.drop_left' rfl, List.take_left' rfl]

/-- At the line the hunk belongs, with the image holding the preimage's
lines between the `LA` prefix and the `LB` suffix, `match_fragment`
succeeds with no fuzzing. -/
theorem matchFragment_success {fix : List Nat → List Nat}
    {img pre post : Image} {LA LP LB : List (List Nat)} {mb me : Bool}
    (hrep : ImgRep img (LA ++ LP ++ LB)) (hpre : ImgRep pre LP)
    (hmb : mb = true → LA.length = 0) (hme : me = true → LB = []) :
    matchFragment fix false img pre post LA.flatten.length LA.length mb me =
      some (pre, post) := by
  obtain ⟨hnr, hln⟩ := imgRep_counts hrep
  obtain ⟨hprenr, hprelen⟩ := imgRep_counts hpre
  obtain ⟨hsum, hhash, hbytes⟩ := imgRep_split hrep
  have h1 : ¬(pre.nr + LA.length > img.nr) := by
    rw [hprenr, hnr]
    simp only [List.length_append]
    omega
  have h2 : ¬(mb = true ∧ LA.length ≠ 0) := fun hand => hand.2 (hmb hand.1)
  have h3 : ¬(me = true ∧ pre.nr + LA.length ≠ img.nr) := by
    intro hand
    have hb := hme hand.1
    rw [hprenr, hnr, hb] at hand
    refine hand.2 ?_
    simp only [List.append_nil, List.length_append]
    omega
  have h4 : ¬(pre.lines.map (·.hash) ≠
      ((img.lines.drop LA.length).take pre.nr).map (·.hash)) := by
    intro hne
    apply hne
    rw [hprenr, hhash, hpre.2.2]
  have h5 : (if me then LA.flatten.length + pre.len = img.len
      else LA.flatten.length + pre.len ≤ img.len) ∧
      (img.buf.drop LA.flatten.length).take pre.len = pre.buf := by
    constructor
    · cases hm : me with
      | true =>
        rw [if_pos rfl, hprelen, hln, hme hm]
        simp [List.flatten_append]
      | false =>
        rw [if_neg (by simp), hprelen, hln]
        simp only [List.flatten_append, List.length_append]
        omega
    · rw [hprelen, hbytes, hpre.1]
  unfold matchFragment
  rw [if_neg h1, if_neg h2, if_neg h3, if_neg h4, if_pos h5]

/-- Clamping a start line that is already in `[0, nr]` is the identity. -/
theorem clampHelper_eq (la : Int) (nr k : Nat) (h1 : la = (k : Int)) (h2 : k ≤ nr) :
    (if la < 0 ∨ (nr : Int) < la then nr else la.toNat) = k := by
  subst h1
  rw [if_neg]
  · exact Int.toNat_ofNat k
  · push_neg
    constructor
    · exact_mod_cast Nat.zero_le k
    · exact_mod_cast h2

/-- Under the same conditions `find_pos` returns that line: the clamped
start is the line itself and the bidirectional scan succeeds on its first
try. -/
theorem findPos_success {fix : List Nat → List Nat}
    {img pre post : Image} {LA LP LB : List (List Nat)} {line : Int} {mb me : Bool}
    (hrep : ImgRep img (LA ++ LP ++ LB)) (hpre : ImgRep pre LP)
    (hmb : mb = true → LA.length = 0) (hme : me = true → LB = [])
    (hline : line = (LA.length : Int)) :
    findPos fix false img pre post line mb me = some (LA.length, pre, post) := by
  obtain ⟨hnr, hln⟩ := imgRep_counts hrep
  obtain ⟨hprenr, hprelen⟩ := imgRep_counts hpre
  obtain ⟨hsum, hhash, hbytes⟩ := imgRep_split hrep
  have hcl : clampStart img pre line mb me = LA.length := by
    simp only [clampStart]
    have hla : (if mb = true then (0 : Int)
        else if me = true then ((img.nr - pre.nr : Nat) : Int) else line) =
        (LA.length : Int) := by
      cases hm : mb with
      | true => simp [hmb hm]
      | false =>
        cases hm2 : me with
        | true =>
          have he : img.nr - pre.nr = LA.length := by
            rw [hnr, hprenr, hme hm2]
            simp
          simp [he]
        | false => simp [hline]
    rw [hla]
    refine clampHelper_eq _ img.nr LA.length rfl ?_
    rw [hnr]
    simp only [List.length_append]
    omega
  unfold findPos
  rw [if_neg (by rw [hprenr, hnr]; simp only [List.length_append]; omega), hcl]
  simp only [hsum]
  rw [fpGo, matchFragment_success hrep hpre hmb hme]

/-- The retry loop returns the first `find_pos` success unchanged. -/
theorem searchLoop_first {fix : List Nat → List Nat} {img : Image} {pc : Nat}
    {fuel : Nat} {pre post : Image} {pos : Int} {l t : Nat} {mb me : Bool}
    {p : Nat}
    (h : findPos fix false img pre post pos mb me = some (p, pre, post)) :
    searchLoop fix false img pc (fuel + 1) pre post pos l t mb me =
      some (p, pre, post, l, t) := by
  rw [searchLoop, h]

/-- One generated hunk applies at its recorded position: with the image
holding the hunk's source side between an `LA` prefix (the lines already
settled) and an `LB` suffix, `apply_one_fragment` succeeds and splices in
the hunk's target side. -/
theorem applyOneFragment_at (fl : Flags) (f : Frag) (fix : List Nat → List Nat)
    (hie : fl.inaccurateEof = false) (hws : fl.wsActionFix = false)
    (hna : fl.noAdd = false) (huz : fl.unidiffZero = false)
    {tg : List (Tag × List Nat)} {LA LB : List (List Nat)} {img : Image}
    (hbody : f.body = tg.map renderLine)
    (hpos : f.newpos = LA.length + 1)
    (hmbh0 : f.oldpos = 0 → LA.length = 0)
    (hmbh : f.oldpos = 1 → LA.length = 0)
    (hmeh : f.trailing = 0 → LB = [])
    (hrep : ImgRep img (LA ++ sideC fl.reverse tg ++ LB)) :
    ∃ img2, applyOneFragment fix fl img f = some img2 ∧
      ImgRep img2 (LA ++ sideC (!fl.reverse) tg ++ LB) := by
  have hwe : ¬(fl.wsErr = true ∧ fl.wsActionFix = true) := by
    intro hand
    rw [hws] at hand
    exact absurd hand.2 (by simp)
  obtain ⟨nbl', hbl⟩ := buildLoop_render fl fix hna hwe tg [] [] 0
  have hbi : buildImages fl fix f.body =
      some (imgOfTagged (sideTagged fl.reverse tg),
        imgOfTagged (sideTagged (!fl.reverse) tg), nbl') := by
    rw [hbody]
    unfold buildImages
    rw [hbl]
    rfl
  have hpre : ImgRep (imgOfTagged (sideTagged fl.reverse tg)) (sideC fl.reverse tg) :=
    imgRep_imgOfTagged _
  have hpost : ImgRep (imgOfTagged (sideTagged (!fl.reverse) tg))
      (sideC (!fl.reverse) tg) := imgRep_imgOfTagged _
  have hmb : matchBeginningFlag fl f = true → LA.length = 0 := by
    intro hm
    unfold matchBeginningFlag at hm
    rw [huz] at hm
    simp only [Bool.not_false, Bool.and_true, Bool.or_eq_true, beq_iff_eq] at hm
    rcases hm with hm | hm
    · exact hmbh0 hm
    · exact hmbh hm
  have hme : matchEndFlag fl f = true → LB = [] := by
    intro hm
    unfold matchEndFlag at hm
    rw [huz] at hm
    simp only [Bool.not_false, Bool.true_and, beq_iff_eq] at hm
    exact hmeh hm
  have hline : (if f.newpos = 0 then (0 : Int) else (f.newpos : Int) - 1) =
      (LA.length : Int) := by
    rw [hpos, if_neg (by omega)]
    push_cast
    ring
  have hfp : findPos fix false img (imgOfTagged (sideTagged fl.reverse tg))
      (imgOfTagged (sideTagged (!fl.reverse) tg))
      (if f.newpos = 0 then (0 : Int) else (f.newpos : Int) - 1)
      (matchBeginningFlag fl f) (matchEndFlag fl f) =
      some (LA.length, imgOfTagged (sideTagged fl.reverse tg),
        imgOfTagged (sideTagged (!fl.reverse) tg)) :=
    findPos_success hrep hpre hmb hme hline
  unfold applyOneFragment
  rw [hbi]
  simp only [hie, hws, decide_eq_true_eq, Bool.false_eq_true, false_and, if_false]
  have hfuel : f.leading + f.trailing + 2 = (f.leading + f.trailing + 1) + 1 := rfl
  rw [hfuel, searchLoop_first hfp]
  simp only [Bool.false_eq_true, false_and, if_false]
  refine ⟨_, rfl, ?_⟩
  exact imgRep_update hrep hpost
    (imgRep_counts hpre).1

/-- Applying a generated patch hunk by hunk rewrites the remaining old
lines into the remaining new lines (forward with the default options,
backward with `reverse_patches` under `--reverse`), with no hunk
rejected. -/
theorem genPatch_apply {fix : List Nat → List Nat} {o n : Nat}
    {O N : List (List Nat)} {frags : List Frag}
    (hgen : GenPatch o n O N frags) :
    (∀ (DONE : List (List Nat)) (img : Image), DONE.length = n →
      ImgRep img (DONE ++ O) →
      ∃ img', applyFragments fix defaultFlags false img frags =
          some (img', List.replicate frags.length false) ∧
        ImgRep img' (DONE ++ N)) ∧
    (∀ (DONE : List (List Nat)) (img : Image), DONE.length = o →
      ImgRep img (DONE ++ N) →
      ∃ img', applyFragments fix reverseFlags false img (reverseFrags frags) =
          some (img', List.replicate frags.length false) ∧
        ImgRep img' (DONE ++ O)) := by
  induction hgen with
  | last o n R =>
    refine ⟨?_, ?_⟩ <;>
    · intro DONE img hlen hrep
      exact ⟨img, by simp [applyFragments, reverseFrags], hrep⟩
  | step o n S tg O' N' frags hold hnew h0 h0' htr hgen ih =>
    constructor
    · intro DONE img hlen hrep
      have hrep' : ImgRep img ((DONE ++ S) ++ sideC defaultFlags.reverse tg ++ O') := by
        have e : (DONE ++ S) ++ sideC false tg ++ O' =
            DONE ++ (S ++ sideC false tg ++ O') := by
          simp [List.append_assoc]
        rw [show sideC defaultFlags.reverse tg = sideC false tg from rfl, e]
        exact hrep
      obtain ⟨img2, happ, hrep2⟩ := applyOneFragment_at defaultFlags
        ⟨o + S.length + 1, (sideC false tg).length, n + S.length + 1,
          (sideC true tg).length, leadCtx tg, trailCtx tg, tg.map renderLine⟩
        fix rfl rfl rfl rfl rfl
        (by show n + S.length + 1 = (DONE ++ S).length + 1
            rw [List.length_append, hlen])
        (fun h => by
          have h2 : o + S.length + 1 = 0 := h
          omega)
        (fun h => by
          have h2 : o + S.length + 1 = 1 := h
          have h3 := h0 (by omega)
          rw [List.length_append, hlen]
          omega)
        (fun h => (htr h).1) hrep'
      have hrep2' : ImgRep img2 ((DONE ++ S ++ sideC true tg) ++ O') := by
        have e : (DONE ++ S ++ sideC true tg) ++ O' =
            (DONE ++ S) ++ sideC (!defaultFlags.reverse) tg ++ O' := by
          rw [show sideC (!defaultFlags.reverse) tg = sideC true tg from rfl]
        rw [e]
        exact hrep2
      obtain ⟨img3, happs, hrep3⟩ := ih.1 (DONE ++ S ++ sideC true tg) img2
        (by simp only [List.length_append, hlen]) hrep2'
      refine ⟨img3, ?_, ?_⟩
      · simp only [applyFragments, happ, happs, List.length_cons,
          List.replicate_succ]
      · have e : (DONE ++ S ++ sideC true tg) ++ N' =
            DONE ++ (S ++ sideC true tg ++ N') := by
          simp [List.append_assoc]
        rw [← e]
        exact hrep3
    · intro DONE img hlen hrep
      have hrep' : ImgRep img ((DONE ++ S) ++ sideC reverseFlags.reverse tg ++ N') := by
        have e : (DONE ++ S) ++ sideC true tg ++ N' =
            DONE ++ (S ++ sideC true tg ++ N') := by
          simp [List.append_assoc]
        rw [show sideC reverseFlags.reverse tg = sideC true tg from rfl, e]
        exact hrep
      obtain ⟨img2, happ, hrep2⟩ := applyOneFragment_at reverseFlags
        (reverseFrag ⟨o + S.length + 1, (sideC false tg).length, n + S.length + 1,
          (sideC true tg).length, leadCtx tg, trailCtx tg, tg.map renderLine⟩)
        fix rfl rfl rfl rfl rfl
        (by show o + S.length + 1 = (DONE ++ S).length + 1
            rw [List.length_append, hlen])
        (fun h => by
          have h2 : n + S.length + 1 = 0 := h
          omega)
        (fun h => by
          have h2 : n + S.length + 1 = 1 := h
          have h3 := h0' (by omega)
          rw [List.length_append, hlen]
          omega)
        (fun h => (htr h).2) hrep'
      have hrep2' : ImgRep img2 ((DONE ++ S ++ sideC false tg) ++ N') := by
        have e : (DONE ++ S ++ sideC false tg) ++ N' =
            (DONE ++ S) ++ sideC (!reverseFlags.reverse) tg ++ N' := by
          rw [show sideC (!reverseFlags.reverse) tg = sideC false tg from rfl]
        rw [e]
        exact hrep2
      obtain ⟨img3, happs, hrep3⟩ := ih.2 (DONE ++ S ++ sideC false tg) img2
        (by simp only [List.length_append, hlen]) hrep2'
      refine ⟨img3, ?_, ?_⟩
      · simp only [reverseFrags, List.map_cons, applyFragments, happ]
        simp only [reverseFrags] at happs
        simp only [happs, List.length_cons, List.replicate_succ]
      · have e : (DONE ++ S ++ sideC false tg) ++ O' =
            DONE ++ (S ++ sideC false tg ++ O') := by
          simp [List.append_assoc]
        rw [← e]
        exact hrep3

/-- C1: for every text file `F` and patch generated from `F` to `F'` (all
hunks locating successfully, as they do at their recorded positions),
applying the patch hunk by hunk to the prepared line-image of `F` yields
exactly the bytes of `F'`; and applying the `reverse_patches`-reversed
patch under `apply_in_reverse` to the line-image of `F'` yields exactly
the bytes of `F`. -/
theorem c1_roundtrip (FB NB : List Nat) (frags : List Frag)
    (hgen : GenPatch 0 0 (splitLinesB FB) (splitLinesB NB) frags) :
    (∃ img, applyFragments id defaultFlags false (prepareImage FB true) frags =
        some (img, List.replicate frags.length false) ∧ img.buf = NB) ∧
    (∃ img, applyFragments id reverseFlags false (prepareImage NB true)
          (reverseFrags frags) =
        some (img, List.replicate frags.length false) ∧ img.buf = FB) := by
  have hrepF : ImgRep (prepareImage FB true) ([] ++ splitLinesB FB) := by
    refine ⟨(splitLinesB_flatten FB).symm, ?_, ?_⟩ <;> simp [prepareImage]
  have hrepN : ImgRep (prepareImage NB true) ([] ++ splitLinesB NB) := by
    refine ⟨(splitLinesB_flatten NB).symm, ?_, ?_⟩ <;> simp [prepareImage]
  obtain ⟨hf, hr⟩ := @genPatch_apply id 0 0 (splitLinesB FB) (splitLinesB NB)
    frags hgen
  constructor
  · obtain ⟨img', happ, hrep'⟩ := hf [] (prepareImage FB true) rfl hrepF
    refine ⟨img', happ, ?_⟩
    rw [hrep'.1]
    simp [splitLinesB_flatten]
  · obtain ⟨img', happ, hrep'⟩ := hr [] (prepareImage NB true) rfl hrepN
    refine ⟨img', happ, ?_⟩
    rw [hrep'.1]
    simp [splitLinesB_flatten]

/-- Round trip of a concrete one-hunk patch: `a\nb\n` to `a\nc\n` and
back. -/
theorem c1_roundtrip_witness :
    (∃ img, applyFragments id defaultFlags false (prepareImage [97, 10, 98, 10] true)
        [⟨1, 2, 1, 2, 1, 0, [[32, 97, 10], [45, 98, 10], [43, 99, 10]]⟩] =
        some (img, [false]) ∧ img.buf = [97, 10, 99, 10]) ∧
    (∃ img, applyFragments id reverseFlags false (prepareImage [97, 10, 99, 10] true)
        (reverseFrags [⟨1, 2, 1, 2, 1, 0, [[32, 97, 10], [45, 98, 10], [43, 99, 10]]⟩]) =
        some (img, [false]) ∧ img.buf = [97, 10, 98, 10]) := by
  have hgen : GenPatch 0 0 (splitLinesB [97, 10, 98, 10]) (splitLinesB [97, 10, 99, 10])
      [⟨1, 2, 1, 2, 1, 0, [[32, 97, 10], [45, 98, 10], [43, 99, 10]]⟩] := by
    rw [show splitLinesB [97, 10, 98, 10] = [[97, 10], [98, 10]] from by decide,
      show splitLinesB [97, 10, 99, 10] = [[97, 10], [99, 10]] from by decide]
    exact GenPatch.step 0 0 []
      [(Tag.ctx, [97, 10]), (Tag.del, [98, 10]), (Tag.add, [99, 10])]
      [] [] [] (by decide) (by decide) (fun h => h) (fun h => h)
      (fun _ => ⟨rfl, rfl⟩) (GenPatch.last 2 2 [])
  exact c1_roundtrip [97, 10, 98, 10] [97, 10, 99, 10] _ hgen

end GitApply
